import Mathlib

/-!
A shallow embedding of the multiparty (threshold) BFV protocol layer of the
fhe.rs repository: the common-random-polynomial generator (`mbfv/crp.rs`), the
`PublicKeySwitchShare` protocol (`mbfv/protocols/public_key_switch.rs`) and the
two-round relinearization-key generation protocol
(`mbfv/protocols/relin_key_gen.rs`), together with theorems about share
construction and share aggregation.

The polynomial-ring arithmetic engine (`fhe_math::rq::Poly`) is external to the
protocol core; a ring element is embedded as a value of an abstract commutative
ring `R` tagged with the context (modulus chain) it lives at and its
representation, which is exactly the data the protocol code manipulates.
Sampling (`Poly::random`, `Poly::small`) is modelled by threading the sampled
ring values in as explicit arguments (a stream `Nat → R` when a loop samples
repeatedly), and the RNS Garner weights (`RnsContext::get_garner`) as an
explicit function `Nat → R`.
-/

namespace Fhe

/-- Representation of a ring element, mirroring `fhe_math::rq::Representation`. -/
inductive Representation where
  | PowerBasis
  | Ntt
  | NttShoup
deriving DecidableEq

/-- The error variants of the library error type that the multiparty protocol
code constructs (`Error::TooFewValues` and `Error::DefaultError`). -/
inductive Error where
  | TooFewValues : Nat → Nat → Error
  | DefaultError : String → Error
deriving DecidableEq

/-- BFV parameters (external `BfvParameters`): ring degree, ordered ciphertext
modulus chain, plaintext modulus and noise variance. -/
structure BfvParameters where
  degree : Nat
  moduli : List Nat
  plaintext : Nat
  variance : Nat
deriving DecidableEq

/-- A ring element (`fhe_math::rq::Poly`). The ring engine is external, so the
underlying value is abstracted into a commutative ring `R`; the context and the
representation are kept as tags. -/
structure Poly (R : Type) where
  ctx : List Nat
  rep : Representation
  val : R
deriving DecidableEq

/-- Ring addition (`AddAssign`/`Add` on `Poly`). The ring layer asserts that the
two contexts coincide; the protocol only ever adds matching operands, and the
model keeps the left operand's tags. -/
instance {R : Type} [Add R] : Add (Poly R) where
  add p q := ⟨p.ctx, p.rep, p.val + q.val⟩

/-- Ring multiplication (`MulAssign`/`Mul` on `Poly`), as for addition. -/
instance {R : Type} [Mul R] : Mul (Poly R) where
  mul p q := ⟨p.ctx, p.rep, p.val * q.val⟩

/-- Ring subtraction (`Sub` on `Poly`), as for addition. -/
instance {R : Type} [Sub R] : Sub (Poly R) where
  sub p q := ⟨p.ctx, p.rep, p.val - q.val⟩

/-- Scalar multiplication of a Garner weight with a ring element
(`w * s` in `RelinKeyShare::<R1>::generate_h0`). -/
def Poly.scalarMul {R : Type} [Mul R] (w : R) (p : Poly R) : Poly R :=
  ⟨p.ctx, p.rep, w * p.val⟩

/-- Default ring element, used only as the out-of-range default of `List.getD`. -/
def Poly.dflt {R : Type} [Zero R] : Poly R :=
  ⟨[], Representation.PowerBasis, 0⟩

/-- A party's secret-key share (external `SecretKey`): its owning parameters and
the ring element its coefficient sequence lifts to. -/
structure SecretKey (R : Type) where
  par : BfvParameters
  coeffs : R
deriving DecidableEq

/-- A BFV ciphertext (external `Ciphertext`): owning parameters, component ring
elements and level. -/
structure Ciphertext (R : Type) where
  par : BfvParameters
  c : List (Poly R)
  level : Nat
deriving DecidableEq

/-- A BFV public key (external `PublicKey`): owning parameters and its
ciphertext pair. -/
structure PublicKey (R : Type) where
  par : BfvParameters
  c : Ciphertext R
deriving DecidableEq

/-- Message of the CRP-vector length check in `relin_key_gen.rs`. -/
def crpSizeMsg : String :=
  "The size of the CRP polynomial vector must equal the number of ciphertext moduli."

/-- Message of the parameter check in `PublicKeySwitchShare::new`. -/
def incompatibleParamsMsg : String :=
  "Incompatible BFV parameters"

/-- Message of the missing-round-1 check in `RelinKeyShare::<R2>::aggregate`. -/
def missingRound1Msg : String :=
  "Shares from round 2 should include a copy for the round 1 aggregation."

/-- Message of the (spec-modelled) `ctx_at_level` failure. -/
def invalidLevelMsg : String :=
  "Invalid level"

/-- Message of the (spec-modelled) `Ciphertext` constructor failure. -/
def invalidCiphertextMsg : String :=
  "Invalid ciphertext"

/-- Message of the (spec-modelled) modulus-switch loop exhaustion; the source
loop `while pk_ct.level != ct.level` simply never terminates in this case. -/
def levelLoopMsg : String :=
  "Modulus switch did not reach the target level"

/-- Modelled from the spec: `BfvParameters::ctx_at_level` of the excluded
single-party BFV layer. The spec says `Parameters` "yields a Context per level"
and a `Context` is a "per-level subset of moduli"; the call fails when the
level has no valid context. Level `l` keeps the first `len - l` moduli. -/
def ctxAtLevel (par : BfvParameters) (level : Nat) : Except Error (List Nat) :=
  if level < par.moduli.length then
    .ok (par.moduli.take (par.moduli.length - level))
  else
    .error (.DefaultError invalidLevelMsg)

/-- Modelled from the spec: `Poly::random` of the external ring layer, which
samples "a uniform ring element in a given representation"; the caller-supplied
draw is the abstract ring value `x`. -/
def Poly.random {R : Type} (ctx : List Nat) (rep : Representation) (x : R) : Poly R :=
  ⟨ctx, rep, x⟩

/-- `generate_crp_leveled` from `mbfv/crp.rs`: one uniform ring element in NTT
representation at the context of the requested level; `draw` is the value the
caller-supplied rng produces. -/
def generate_crp_leveled {R : Type} (par : BfvParameters) (level : Nat) (draw : R) :
    Except Error (Poly R) := do
  let ctx ← ctxAtLevel par level
  .ok (Poly.random ctx Representation.Ntt draw)

/-- `generate_crp` from `mbfv/crp.rs`. -/
def generate_crp {R : Type} (par : BfvParameters) (draw : R) : Except Error (Poly R) :=
  generate_crp_leveled par 0 draw

/-- The `collect::<Result<Vec<_>>>()` idiom: collect a list of fallible values,
failing on the first error. -/
def collectExcept {ε α : Type} : List (Except ε α) → Except ε (List α)
  | [] => .ok []
  | x :: xs => do
    let a ← x
    let as ← collectExcept xs
    .ok (a :: as)

/-- `generate_crp_vec` from `mbfv/crp.rs`: one CRP per ciphertext modulus, each
produced by `generate_crp_leveled` at level 0; `rng i` is the draw consumed by
the `i`-th call. -/
def generate_crp_vec {R : Type} (par : BfvParameters) (rng : Nat → R) :
    Except Error (List (Poly R)) :=
  collectExcept ((List.range par.moduli.length).map
    (fun i => generate_crp_leveled par 0 (rng i)))

/-- `Option::ok_or`. -/
def okOr {ε α : Type} (o : Option α) (e : ε) : Except ε α :=
  match o with
  | some a => .ok a
  | none => .error e

/-- Decidable equality of `Except` values, for the executable checks below. -/
instance {ε α : Type} [DecidableEq ε] [DecidableEq α] : DecidableEq (Except ε α) :=
  fun x y =>
    match x, y with
    | .ok a, .ok b =>
      if h : a = b then isTrue (by rw [h])
      else isFalse (fun hh => h (Except.ok.inj hh))
    | .error a, .error b =>
      if h : a = b then isTrue (by rw [h])
      else isFalse (fun hh => h (Except.error.inj hh))
    | .ok _, .error _ => isFalse (fun hh => Except.noConfusion hh)
    | .error _, .ok _ => isFalse (fun hh => Except.noConfusion hh)

/-- Whether an `Except` value is a success. -/
def exceptIsOk {ε α : Type} : Except ε α → Bool
  | .ok _ => true
  | .error _ => false

/-- Modelled from the spec: the `Ciphertext` constructor of the excluded
single-party BFV layer; the spec says a ciphertext is "level + 2-3 ring
elements + owning Parameters" and that "a constructor validates component count
and Parameters match". The level is recovered from the components' context,
which must be the parameters' context at that level. -/
def Ciphertext.new {R : Type} [CommRing R] (c : List (Poly R)) (par : BfvParameters) :
    Except Error (Ciphertext R) :=
  let ctx := (c.headD Poly.dflt).ctx
  let level := par.moduli.length - ctx.length
  if 2 ≤ c.length ∧ c.length ≤ 3 ∧ c.all (fun p => p.ctx = ctx) ∧
      ctxAtLevel par level = .ok ctx then
    .ok ⟨par, c, level⟩
  else
    .error (.DefaultError invalidCiphertextMsg)

/-- A party's share of the PubKeySwitch protocol
(`mbfv/protocols/public_key_switch.rs`). -/
structure PublicKeySwitchShare (R : Type) where
  par : BfvParameters
  c0 : Poly R
  h0_share : Poly R
  h1_share : Poly R
deriving DecidableEq

/-- Modelled from the spec: the loop `while pk_ct.level != ct.level` of
`PublicKeySwitchShare::new`, advancing the public key "via repeated
modulus-switch until levels match". The external
`Ciphertext::mod_switch_to_next_level` is passed in as `modSwitch`; the fuel
bounds the iteration (the source loop never terminates when the target level is
unreachable). -/
def advanceTo {R : Type} (modSwitch : Ciphertext R → Except Error (Ciphertext R))
    (target : Nat) : Nat → Ciphertext R → Except Error (Ciphertext R)
  | 0, ct =>
    if ct.level = target then .ok ct else .error (.DefaultError levelLoopMsg)
  | fuel + 1, ct =>
    if ct.level = target then .ok ct
    else do
      advanceTo modSwitch target fuel (← modSwitch ct)

/-- `PublicKeySwitchShare::new`. The sampled mask and errors (`u`, `e0`, `e1`,
each `Poly::small` at the ciphertext-level context in NTT representation) are
passed in as the ring values the rng produces, and the external modulus switch
as `modSwitch`. The parameter check is the first thing the function does. -/
def PublicKeySwitchShare.new {R : Type} [CommRing R] (sk_share : SecretKey R)
    (public_key : PublicKey R) (ct : Ciphertext R) (u e0 e1 : R)
    (modSwitch : Ciphertext R → Except Error (Ciphertext R)) :
    Except Error (PublicKeySwitchShare R) :=
  if sk_share.par ≠ public_key.par ∨ public_key.par ≠ ct.par then
    .error (.DefaultError incompatibleParamsMsg)
  else do
    let par := sk_share.par
    let pk_ct ← advanceTo modSwitch ct.level (public_key.c.level + ct.level + 1) public_key.c
    let ctx ← ctxAtLevel par ct.level
    let s0 : Poly R := ⟨ctx, Representation.PowerBasis, sk_share.coeffs⟩
    let s : Poly R := { s0 with rep := Representation.Ntt }
    let uP : Poly R := ⟨ctx, Representation.Ntt, u⟩
    let e0P : Poly R := ⟨ctx, Representation.Ntt, e0⟩
    let e1P : Poly R := ⟨ctx, Representation.Ntt, e1⟩
    let h0 := pk_ct.c.getD 0 Poly.dflt * uP
    let s1 := s * ct.c.getD 1 Poly.dflt
    let h0 := h0 + s1
    let h0 := h0 + e0P
    let h1 := pk_ct.c.getD 1 Poly.dflt * uP
    let h1 := h1 + e1P
    .ok ⟨par, ct.c.getD 0 Poly.dflt, h0, h1⟩

/-- `impl Aggregate for PublicKeySwitchShare`: fold the trailing shares'
`h0_share`/`h1_share` into the first share's, then build the output ciphertext
`(c0 + h0, h1)` under the first share's parameters. -/
def PublicKeySwitchShare.aggregate {R : Type} [CommRing R]
    (shares : List (PublicKeySwitchShare R)) : Except Error (Ciphertext R) :=
  match shares with
  | [] => .error (.TooFewValues 0 1)
  | share :: rest =>
    let hs := rest.foldl
      (fun (a : Poly R × Poly R) sh => (a.1 + sh.h0_share, a.2 + sh.h1_share))
      (share.h0_share, share.h1_share)
    let c0 := share.c0 + hs.1
    Ciphertext.new [c0, hs.2] share.par

/-- The round markers of the relinearization-key generation protocol
(`R1`, `R1Aggregated`, `R2` in `relin_key_gen.rs`). -/
inductive Round where
  | R1
  | R1Aggregated
  | R2
deriving DecidableEq

/-- `RelinKeyShare<R: Round>`: parameters, the vectors `h0` and `h1` (one entry
per ciphertext modulus), and — for round-2 shares — the embedded copy of the
round-1 aggregation (`last_round`, `None` for the other rounds). -/
inductive RelinKeyShare (R : Type) : Round → Type where
  | mk {rd : Round} (par : BfvParameters) (h0 h1 : List (Poly R))
      (last_round : Option (RelinKeyShare R Round.R1Aggregated)) :
      RelinKeyShare R rd

/-- The `par` field of a `RelinKeyShare`. -/
def RelinKeyShare.par {R : Type} {rd : Round} : RelinKeyShare R rd → BfvParameters
  | .mk p _ _ _ => p

/-- The `h0` field of a `RelinKeyShare`. -/
def RelinKeyShare.h0 {R : Type} {rd : Round} : RelinKeyShare R rd → List (Poly R)
  | .mk _ h _ _ => h

/-- The `h1` field of a `RelinKeyShare`. -/
def RelinKeyShare.h1 {R : Type} {rd : Round} : RelinKeyShare R rd → List (Poly R)
  | .mk _ _ h _ => h

/-- The `last_round` field of a `RelinKeyShare`. -/
def RelinKeyShare.last_round {R : Type} {rd : Round} :
    RelinKeyShare R rd → Option (RelinKeyShare R Round.R1Aggregated)
  | .mk _ _ _ lr => lr

/-- A key-switching key (external `KeySwitchingKey`), with exactly the fields
assigned by `RelinKeyShare::<R2>::aggregate`. -/
structure KeySwitchingKey (R : Type) where
  par : BfvParameters
  seed : Option Nat
  c0 : List (Poly R)
  c1 : List (Poly R)
  ciphertext_level : Nat
  ctx_ciphertext : List Nat
  ksk_level : Nat
  ctx_ksk : List Nat

/-- A relinearization key (external `RelinearizationKey`), wrapping its
key-switching key. -/
structure RelinearizationKey (R : Type) where
  ksk : KeySwitchingKey R

/-- The context a level-0 computation uses, as a total function: level 0 keeps
the whole modulus chain (`ctxAtLevel par 0` when it succeeds). -/
def ctx0 (par : BfvParameters) : List Nat :=
  par.moduli.take par.moduli.length

/-- Enumerated map, mirroring `.iter().enumerate().map(...)` (and plain `map`
loops that draw one rng sample per iteration, where the index selects the
sample from the stream). -/
def enumMapFrom {α β : Type} (f : Nat → α → β) : Nat → List α → List β
  | _, [] => []
  | i, a :: as => f i a :: enumMapFrom f (i + 1) as

/-- `RelinKeyShare::<R1>::generate_h0`: per CRP entry `i`,
`h0_i = CRP_i * u + w_i * s + e_i`, computed in NTT representation with `s` the
secret lifted to the level-0 context, `w_i` the Garner weight for modulus `i`
and `e_i` the freshly sampled error. -/
def RelinKeyShare.r1_generate_h0 {R : Type} [CommRing R] (sk_share : SecretKey R)
    (crp : List (Poly R)) (u : Poly R) (garner : Nat → R) (es : Nat → R) :
    List (Poly R) :=
  let ctx := ctx0 sk_share.par
  let s : Poly R := ⟨ctx, Representation.Ntt, sk_share.coeffs⟩
  enumMapFrom (fun i a =>
    let w_s := Poly.scalarMul (garner i) s
    let e : Poly R := ⟨ctx, Representation.Ntt, es i⟩
    let h := { a with rep := Representation.Ntt }
    let h := h * u
    let h := h + w_s
    h + e) 0 crp

/-- `RelinKeyShare::<R1>::generate_h1`: per CRP entry, `h1_i = CRP_i * s + e_i`
with a fresh error per entry. -/
def RelinKeyShare.r1_generate_h1 {R : Type} [CommRing R] (sk_share : SecretKey R)
    (crp : List (Poly R)) (es : Nat → R) : List (Poly R) :=
  let ctx := ctx0 sk_share.par
  let s : Poly R := ⟨ctx, Representation.Ntt, sk_share.coeffs⟩
  enumMapFrom (fun i a =>
    let h := { a with rep := Representation.Ntt }
    let e : Poly R := ⟨ctx, Representation.Ntt, es i⟩
    let h := h * s
    h + e) 0 crp

/-- `RelinKeyShare::<R1>::new`: check the CRP vector length against the number
of ciphertext moduli at level 0, then build the `h0`/`h1` vectors. -/
def RelinKeyShare.r1_new {R : Type} [CommRing R] (sk_share : SecretKey R)
    (crp : List (Poly R)) (u : Poly R) (garner : Nat → R) (e0s e1s : Nat → R) :
    Except Error (RelinKeyShare R Round.R1) := do
  let par := sk_share.par
  let ctx ← ctxAtLevel par 0
  if crp.length ≠ ctx.length then
    .error (.DefaultError crpSizeMsg)
  else
    .ok (RelinKeyShare.mk par
      (RelinKeyShare.r1_generate_h0 sk_share crp u garner e0s)
      (RelinKeyShare.r1_generate_h1 sk_share crp e1s)
      none)

/-- The element-wise in-place sum `izip!(a.iter_mut(), b.iter()).for_each(..)`:
entries of `a` below `b`'s length get `b` added, the rest are unchanged (the
zip stops at the shorter sequence). -/
def addAssignZip {R : Type} [CommRing R] (a b : List (Poly R)) : List (Poly R) :=
  a.zipWith (fun x y => x + y) b ++ a.drop b.length

/-- `impl Aggregate for RelinKeyShare<R1>`: element-wise sums of the `h0` and
`h1` vectors across shares, producing an `R1Aggregated` share with no embedded
round. -/
def RelinKeyShare.r1_aggregate {R : Type} [CommRing R]
    (shares : List (RelinKeyShare R Round.R1)) :
    Except Error (RelinKeyShare R Round.R1Aggregated) :=
  match shares with
  | [] => .error (.TooFewValues 0 1)
  | share :: rest =>
    let hs := rest.foldl
      (fun (a : List (Poly R) × List (Poly R)) sh =>
        (addAssignZip a.1 sh.h0, addAssignZip a.2 sh.h1))
      (share.h0, share.h1)
    .ok (RelinKeyShare.mk share.par hs.1 hs.2 none)

/-- `RelinKeyShare::<R2>::generate_h0`: per aggregated entry,
`h0'_i = agg_h0_i * s + e_i`. -/
def RelinKeyShare.r2_generate_h0 {R : Type} [CommRing R] (sk_share : SecretKey R)
    (r1_h0 : List (Poly R)) (es : Nat → R) : List (Poly R) :=
  let ctx := ctx0 sk_share.par
  let s : Poly R := ⟨ctx, Representation.Ntt, sk_share.coeffs⟩
  enumMapFrom (fun i h =>
    let e : Poly R := ⟨ctx, Representation.Ntt, es i⟩
    let h' := { h with rep := Representation.Ntt }
    let h' := h' * s
    h' + e) 0 r1_h0

/-- `RelinKeyShare::<R2>::generate_h1`: per aggregated entry,
`h1'_i = agg_h1_i * (u - s) + e_i`. -/
def RelinKeyShare.r2_generate_h1 {R : Type} [CommRing R] (sk_share : SecretKey R)
    (u : Poly R) (r1_h1 : List (Poly R)) (es : Nat → R) : List (Poly R) :=
  let ctx := ctx0 sk_share.par
  let s : Poly R := ⟨ctx, Representation.Ntt, sk_share.coeffs⟩
  let u_s := u - s
  enumMapFrom (fun i h =>
    let h' := { h with rep := Representation.Ntt }
    let e : Poly R := ⟨ctx, Representation.Ntt, es i⟩
    let h' := h' * u_s
    h' + e) 0 r1_h1

/-- `RelinKeyShare::<R2>::new`: build the round-2 vectors from the aggregated
round-1 share and embed an owned copy of it (`last_round: Some(..)`). The
level-0 context lookup inside the generators is the only failure path. -/
def RelinKeyShare.r2_new {R : Type} [CommRing R] (sk_share : SecretKey R)
    (u : Poly R) (r1 : RelinKeyShare R Round.R1Aggregated) (e0s e1s : Nat → R) :
    Except Error (RelinKeyShare R Round.R2) := do
  let par := sk_share.par
  let _ ← ctxAtLevel par 0
  .ok (RelinKeyShare.mk par
    (RelinKeyShare.r2_generate_h0 sk_share r1.h0 e0s)
    (RelinKeyShare.r2_generate_h1 sk_share u r1.h1 e1s)
    (some r1))

/-- `RelinKeyGenerator`: a party's secret-key share, the CRP vector and the
ephemeral mask `u`, sampled once at construction and reused in both rounds. -/
structure RelinKeyGenerator (R : Type) where
  sk_share : SecretKey R
  crp : List (Poly R)
  u : Poly R

/-- `RelinKeyGenerator::new`: check the CRP-vector length against the number of
ciphertext moduli at level 0, then sample the ephemeral mask `u` (`uDraw` is
the sampled ring value, at the level-0 context in NTT representation). -/
def RelinKeyGenerator.new {R : Type} [CommRing R] (sk_share : SecretKey R)
    (crp : List (Poly R)) (uDraw : R) : Except Error (RelinKeyGenerator R) := do
  let par := sk_share.par
  let ctx ← ctxAtLevel par 0
  if crp.length ≠ ctx.length then
    .error (.DefaultError crpSizeMsg)
  else
    .ok ⟨sk_share, crp, ⟨ctx, Representation.Ntt, uDraw⟩⟩

/-- `RelinKeyGenerator::round_1`. -/
def RelinKeyGenerator.round_1 {R : Type} [CommRing R] (g : RelinKeyGenerator R)
    (garner : Nat → R) (e0s e1s : Nat → R) : Except Error (RelinKeyShare R Round.R1) :=
  RelinKeyShare.r1_new g.sk_share g.crp g.u garner e0s e1s

/-- `RelinKeyGenerator::round_2`. -/
def RelinKeyGenerator.round_2 {R : Type} [CommRing R] (g : RelinKeyGenerator R)
    (r1 : RelinKeyShare R Round.R1Aggregated) (e0s e1s : Nat → R) :
    Except Error (RelinKeyShare R Round.R2) :=
  RelinKeyShare.r2_new g.sk_share g.u r1 e0s e1s

/-- Three-way zip, mirroring `izip!` over three iterators (stops at the
shortest). -/
def zipWith3 {α β γ δ : Type} (f : α → β → γ → δ) : List α → List β → List γ → List δ
  | x :: xs, y :: ys, z :: zs => f x y z :: zipWith3 f xs ys zs
  | _, _, _ => []

/-- The in-place triple sum
`izip!(h.iter_mut(), sh.h0.iter(), sh.h1.iter()).for_each(..)` of
`RelinKeyShare::<R2>::aggregate`: entries of `h` below both other lengths get
both added, the rest are unchanged. -/
def addAssignZip2 {R : Type} [CommRing R] (h a b : List (Poly R)) : List (Poly R) :=
  zipWith3 (fun x y z => x + y + z) h a b ++ h.drop (min a.length b.length)

/-- `impl Aggregate for RelinKeyShare<R2>`: take the first share, fetch the
level-0 context, require the first share's embedded round-1 aggregation, sum
`h0 + h1` over all shares into `h`, and build the relinearization key with
`c0 = h` and `c1` the embedded round-1 `h1`, pinned to level 0. -/
def RelinKeyShare.r2_aggregate {R : Type} [CommRing R]
    (shares : List (RelinKeyShare R Round.R2)) :
    Except Error (RelinearizationKey R) :=
  match shares with
  | [] => .error (.TooFewValues 0 1)
  | share :: rest => do
    let par := share.par
    let ctx ← ctxAtLevel par 0
    let r1 ← okOr share.last_round (Error.DefaultError missingRound1Msg)
    let h := addAssignZip share.h0 share.h1
    let h := rest.foldl (fun acc sh => addAssignZip2 acc sh.h0 sh.h1) h
    .ok ⟨⟨par, none, h, r1.h1, 0, ctx, 0, ctx⟩⟩

/-- Replace the `par` field of a relin-key share, keeping everything else; used
to state that aggregation never inspects the trailing shares' parameters. -/
def RelinKeyShare.setPar {R : Type} {rd : Round} (q : BfvParameters) :
    RelinKeyShare R rd → RelinKeyShare R rd
  | .mk _ h0 h1 lr => .mk q h0 h1 lr

/-- Replace the `par` field of a `PublicKeySwitchShare`, keeping everything
else. -/
def PublicKeySwitchShare.setPar {R : Type} (q : BfvParameters)
    (sh : PublicKeySwitchShare R) : PublicKeySwitchShare R :=
  { sh with par := q }

/-- The tag data (context, representation) of a ring element. -/
def Poly.tag {R : Type} (p : Poly R) : List Nat × Representation :=
  (p.ctx, p.rep)

/-- Default tag, used only as out-of-range default of `List.getD`. -/
def tagDflt : List Nat × Representation :=
  ([], Representation.PowerBasis)

/-- A vector of ring elements with a given tag profile and given values. -/
def canonVec {R : Type} (t : List (List Nat × Representation)) (v : Nat → R) :
    List (Poly R) :=
  (List.range t.length).map (fun i => ⟨(t.getD i tagDflt).1, (t.getD i tagDflt).2, v i⟩)

/-- The sum of the values at column `i` of the vectors `proj` selects from a
list of shares. -/
def colSum {R σ : Type} [CommRing R] (proj : σ → List (Poly R)) (l : List σ) (i : Nat) : R :=
  (l.map (fun sh => ((proj sh).getD i Poly.dflt).val)).sum

/-- The sum, over a list of shares, of the two values at column `i` of the two
vectors `p1` and `p2` select. -/
def colSum2 {R σ : Type} [CommRing R] (p1 p2 : σ → List (Poly R)) (l : List σ) (i : Nat) : R :=
  (l.map (fun sh => ((p1 sh).getD i Poly.dflt).val + ((p2 sh).getD i Poly.dflt).val)).sum

/-! Concrete instances over `R = ℤ`, used by the executable checks below. -/

/-- Concrete parameters: degree 8, one ciphertext modulus, plaintext modulus 3. -/
def parA : BfvParameters := ⟨8, [5], 3, 1⟩

/-- Concrete parameters distinct from `parA` (different plaintext modulus, same
modulus chain, hence the same level-0 context). -/
def parB : BfvParameters := ⟨8, [5], 7, 1⟩

/-- A concrete ring element at the level-0 context of `parA`. -/
def pA (v : Int) : Poly Int := ⟨[5], Representation.Ntt, v⟩

/-- A concrete round-1 relin share under `parA`. -/
def r1A : RelinKeyShare Int Round.R1 := RelinKeyShare.mk parA [pA 1] [pA 2] none

/-- A concrete round-1 relin share under `parB`. -/
def r1B : RelinKeyShare Int Round.R1 := RelinKeyShare.mk parB [pA 3] [pA 4] none

/-- A concrete round-1 relin share under `parA`, distinct from `r1A`. -/
def r1C : RelinKeyShare Int Round.R1 := RelinKeyShare.mk parA [pA 3] [pA 4] none

/-- A concrete aggregated round-1 object. -/
def aggAB : RelinKeyShare Int Round.R1Aggregated :=
  RelinKeyShare.mk parA [pA 4] [pA 6] none

/-- A concrete round-2 relin share embedding `aggAB`. -/
def r2A : RelinKeyShare Int Round.R2 := RelinKeyShare.mk parA [pA 1] [pA 2] (some aggAB)

/-- A concrete round-2 relin share with no embedded round-1 aggregation. -/
def r2B : RelinKeyShare Int Round.R2 := RelinKeyShare.mk parA [pA 3] [pA 4] none

/-- A concrete round-2 relin share embedding `aggAB`, distinct from `r2A`. -/
def r2C : RelinKeyShare Int Round.R2 := RelinKeyShare.mk parA [pA 3] [pA 4] (some aggAB)

/-- A concrete secret-key share under `parA`. -/
def skA : SecretKey Int := ⟨parA, 2⟩

/-- A concrete secret-key share under `parB`. -/
def skB : SecretKey Int := ⟨parB, 2⟩

/-- A concrete ciphertext under `parA`. -/
def ctA : Ciphertext Int := ⟨parA, [pA 1, pA 2], 0⟩

/-- A concrete public key under `parA`. -/
def pkA : PublicKey Int := ⟨parA, ctA⟩

/-- A concrete public-key-switch share under `parA`. -/
def pksA : PublicKeySwitchShare Int := ⟨parA, pA 1, pA 2, pA 3⟩

/-- A concrete public-key-switch share under `parA` with the same stored `c0`
as `pksA`. -/
def pksB : PublicKeySwitchShare Int := ⟨parA, pA 1, pA 5, pA 7⟩

/-- A concrete relin-key generator for the party `skA`. -/
def genC : RelinKeyGenerator Int := ⟨skA, [pA 9], pA 1⟩

/-! Helper lemmas. -/

@[simp]
theorem Poly.add_ctx {R : Type} [Add R] (p q : Poly R) : (p + q).ctx = p.ctx := rfl

@[simp]
theorem Poly.add_rep {R : Type} [Add R] (p q : Poly R) : (p + q).rep = p.rep := rfl

@[simp]
theorem Poly.add_val {R : Type} [Add R] (p q : Poly R) : (p + q).val = p.val + q.val := rfl

@[simp]
theorem RelinKeyShare.par_mk {R : Type} {rd : Round} (p : BfvParameters)
    (h0 h1 : List (Poly R)) (lr : Option (RelinKeyShare R Round.R1Aggregated)) :
    ((RelinKeyShare.mk p h0 h1 lr : RelinKeyShare R rd)).par = p := rfl

@[simp]
theorem RelinKeyShare.h0_mk {R : Type} {rd : Round} (p : BfvParameters)
    (h0 h1 : List (Poly R)) (lr : Option (RelinKeyShare R Round.R1Aggregated)) :
    ((RelinKeyShare.mk p h0 h1 lr : RelinKeyShare R rd)).h0 = h0 := rfl

@[simp]
theorem RelinKeyShare.h1_mk {R : Type} {rd : Round} (p : BfvParameters)
    (h0 h1 : List (Poly R)) (lr : Option (RelinKeyShare R Round.R1Aggregated)) :
    ((RelinKeyShare.mk p h0 h1 lr : RelinKeyShare R rd)).h1 = h1 := rfl

@[simp]
theorem RelinKeyShare.last_round_mk {R : Type} {rd : Round} (p : BfvParameters)
    (h0 h1 : List (Poly R)) (lr : Option (RelinKeyShare R Round.R1Aggregated)) :
    ((RelinKeyShare.mk p h0 h1 lr : RelinKeyShare R rd)).last_round = lr := rfl

@[simp]
theorem RelinKeyShare.setPar_par {R : Type} {rd : Round} (q : BfvParameters)
    (sh : RelinKeyShare R rd) : (RelinKeyShare.setPar q sh).par = q := by
  cases sh; rfl

@[simp]
theorem RelinKeyShare.setPar_h0 {R : Type} {rd : Round} (q : BfvParameters)
    (sh : RelinKeyShare R rd) : (RelinKeyShare.setPar q sh).h0 = sh.h0 := by
  cases sh; rfl

@[simp]
theorem RelinKeyShare.setPar_h1 {R : Type} {rd : Round} (q : BfvParameters)
    (sh : RelinKeyShare R rd) : (RelinKeyShare.setPar q sh).h1 = sh.h1 := by
  cases sh; rfl

@[simp]
theorem RelinKeyShare.setPar_last_round {R : Type} {rd : Round} (q : BfvParameters)
    (sh : RelinKeyShare R rd) :
    (RelinKeyShare.setPar q sh).last_round = sh.last_round := by
  cases sh; rfl

@[simp]
theorem PublicKeySwitchShare.setPar_fields {R : Type} (q : BfvParameters)
    (sh : PublicKeySwitchShare R) :
    (PublicKeySwitchShare.setPar q sh).c0 = sh.c0 ∧
    (PublicKeySwitchShare.setPar q sh).h0_share = sh.h0_share ∧
    (PublicKeySwitchShare.setPar q sh).h1_share = sh.h1_share :=
  ⟨rfl, rfl, rfl⟩

/-- A left fold over pairs splits into the two component folds. -/
theorem foldl_pair {α β γ : Type} (f : β → α → β) (g : γ → α → γ) (l : List α)
    (a : β) (b : γ) :
    l.foldl (fun p x => (f p.1 x, g p.2 x)) (a, b) = (l.foldl f a, l.foldl g b) := by
  induction l generalizing a b with
  | nil => rfl
  | cons x xs ih => simpa using ih (f a x) (g b x)

/-- A left fold of ring-element additions keeps the accumulator's tags and sums
the values. -/
theorem foldl_polyAdd {R σ : Type} [CommRing R] (proj : σ → Poly R) (l : List σ)
    (a : Poly R) :
    l.foldl (fun acc x => acc + proj x) a =
      ⟨a.ctx, a.rep, a.val + (l.map (fun x => (proj x).val)).sum⟩ := by
  induction l generalizing a with
  | nil => cases a; simp
  | cons x xs ih =>
    rw [List.foldl_cons, ih]
    simp [add_assoc]

@[simp]
theorem enumMapFrom_length {α β : Type} (f : Nat → α → β) (j : Nat) (l : List α) :
    (enumMapFrom f j l).length = l.length := by
  induction l generalizing j with
  | nil => rfl
  | cons x xs ih => simpa [enumMapFrom] using ih (j + 1)

theorem enumMapFrom_getD {α β : Type} (f : Nat → α → β) (j : Nat) (l : List α)
    (i : Nat) (d : α) (d' : β) (hi : i < l.length) :
    (enumMapFrom f j l).getD i d' = f (j + i) (l.getD i d) := by
  induction l generalizing j i with
  | nil => simp at hi
  | cons x xs ih =>
    cases i with
    | zero => simp [enumMapFrom]
    | succ i =>
      have := ih (j + 1) i (by simpa using Nat.lt_of_succ_lt_succ hi)
      simpa [enumMapFrom, Nat.add_assoc, Nat.add_comm 1 i] using this

@[simp]
theorem addAssignZip_nil_right {R : Type} [CommRing R] (a : List (Poly R)) :
    addAssignZip a [] = a := by
  simp [addAssignZip]

theorem addAssignZip_cons {R : Type} [CommRing R] (x y : Poly R)
    (xs ys : List (Poly R)) :
    addAssignZip (x :: xs) (y :: ys) = (x + y) :: addAssignZip xs ys := by
  simp [addAssignZip]

@[simp]
theorem length_addAssignZip {R : Type} [CommRing R] (a b : List (Poly R)) :
    (addAssignZip a b).length = a.length := by
  simp [addAssignZip]
  omega

theorem getD_addAssignZip {R : Type} [CommRing R] (a b : List (Poly R)) (i : Nat)
    (ha : i < a.length) (hb : i < b.length) :
    (addAssignZip a b).getD i Poly.dflt = a.getD i Poly.dflt + b.getD i Poly.dflt := by
  induction a generalizing b i with
  | nil => simp at ha
  | cons x xs ih =>
    cases b with
    | nil => simp at hb
    | cons y ys =>
      rw [addAssignZip_cons]
      cases i with
      | zero => simp
      | succ i =>
        simp only [List.getD_cons_succ]
        exact ih ys i (by simpa using Nat.lt_of_succ_lt_succ ha)
          (by simpa using Nat.lt_of_succ_lt_succ hb)

theorem zipWith3_cons {α β γ δ : Type} (f : α → β → γ → δ) (x : α) (y : β) (z : γ)
    (xs : List α) (ys : List β) (zs : List γ) :
    zipWith3 f (x :: xs) (y :: ys) (z :: zs) = f x y z :: zipWith3 f xs ys zs := rfl

@[simp]
theorem length_zipWith3 {α β γ δ : Type} (f : α → β → γ → δ) (xs : List α)
    (ys : List β) (zs : List γ) :
    (zipWith3 f xs ys zs).length = min xs.length (min ys.length zs.length) := by
  induction xs generalizing ys zs with
  | nil => simp [zipWith3]
  | cons x xs ih =>
    cases ys with
    | nil => simp [zipWith3]
    | cons y ys =>
      cases zs with
      | nil => simp [zipWith3]
      | cons z zs => simp [zipWith3, ih]; omega

theorem addAssignZip2_cons {R : Type} [CommRing R] (x y z : Poly R)
    (h a b : List (Poly R)) :
    addAssignZip2 (x :: h) (y :: a) (z :: b) = (x + y + z) :: addAssignZip2 h a b := by
  simp [addAssignZip2, zipWith3, Nat.succ_min_succ]

@[simp]
theorem length_addAssignZip2 {R : Type} [CommRing R] (h a b : List (Poly R)) :
    (addAssignZip2 h a b).length = h.length := by
  simp [addAssignZip2]
  omega

theorem getD_addAssignZip2 {R : Type} [CommRing R] (h a b : List (Poly R)) (i : Nat)
    (hh : i < h.length) (ha : i < a.length) (hb : i < b.length) :
    (addAssignZip2 h a b).getD i Poly.dflt =
      h.getD i Poly.dflt + a.getD i Poly.dflt + b.getD i Poly.dflt := by
  induction h generalizing a b i with
  | nil => simp at hh
  | cons x xs ih =>
    cases a with
    | nil => simp at ha
    | cons y ys =>
      cases b with
      | nil => simp at hb
      | cons z zs =>
        rw [addAssignZip2_cons]
        cases i with
        | zero => simp
        | succ i =>
          simp only [List.getD_cons_succ]
          exact ih ys zs i (by simpa using Nat.lt_of_succ_lt_succ hh)
            (by simpa using Nat.lt_of_succ_lt_succ ha)
            (by simpa using Nat.lt_of_succ_lt_succ hb)

/-- Two lists are equal when they have the same length and the same `getD`
entries below it. -/
theorem list_ext_getD {α : Type} (d : α) (l1 l2 : List α)
    (hlen : l1.length = l2.length)
    (h : ∀ i, i < l1.length → l1.getD i d = l2.getD i d) : l1 = l2 := by
  induction l1 generalizing l2 with
  | nil => cases l2 with
    | nil => rfl
    | cons y ys => simp at hlen
  | cons x xs ih =>
    cases l2 with
    | nil => simp at hlen
    | cons y ys =>
      have h0 := h 0 (by simp)
      simp only [List.getD_cons_zero] at h0
      subst h0
      have := ih ys (by simpa using hlen)
        (fun i hi => by simpa using h (i + 1) (by simpa using Nat.succ_lt_succ hi))
      rw [this]

theorem length_foldl_addAssignZip {R σ : Type} [CommRing R] (proj : σ → List (Poly R))
    (l : List σ) (acc : List (Poly R)) :
    (l.foldl (fun a x => addAssignZip a (proj x)) acc).length = acc.length := by
  induction l generalizing acc with
  | nil => rfl
  | cons x xs ih => simpa using ih (addAssignZip acc (proj x))

/-- Pointwise characterization of the element-wise-sum fold: tags come from the
accumulator, values are the accumulator's plus the column sum. -/
theorem getD_foldl_addAssignZip {R σ : Type} [CommRing R] (proj : σ → List (Poly R))
    (l : List σ) (acc : List (Poly R))
    (hl : ∀ x ∈ l, (proj x).length = acc.length) (i : Nat) (hi : i < acc.length) :
    (l.foldl (fun a x => addAssignZip a (proj x)) acc).getD i Poly.dflt =
      ⟨(acc.getD i Poly.dflt).ctx, (acc.getD i Poly.dflt).rep,
        (acc.getD i Poly.dflt).val + colSum proj l i⟩ := by
  induction l generalizing acc with
  | nil => simp only [List.foldl_nil, colSum, List.map_nil, List.sum_nil, add_zero]
  | cons x xs ih =>
    rw [List.foldl_cons,
      ih (addAssignZip acc (proj x))
        (fun y hy => by simpa using hl y (List.mem_cons_of_mem x hy))
        (by simpa using hi)]
    rw [getD_addAssignZip acc (proj x) i hi
      (by rw [hl x (List.mem_cons_self x xs)]; exact hi)]
    simp [colSum, add_assoc]

theorem length_foldl_addAssignZip2 {R σ : Type} [CommRing R]
    (p1 p2 : σ → List (Poly R)) (l : List σ) (acc : List (Poly R)) :
    (l.foldl (fun a x => addAssignZip2 a (p1 x) (p2 x)) acc).length = acc.length := by
  induction l generalizing acc with
  | nil => rfl
  | cons x xs ih => simpa using ih (addAssignZip2 acc (p1 x) (p2 x))

/-- Pointwise characterization of the triple element-wise-sum fold of round-2
aggregation. -/
theorem getD_foldl_addAssignZip2 {R σ : Type} [CommRing R]
    (p1 p2 : σ → List (Poly R)) (l : List σ) (acc : List (Poly R))
    (hl : ∀ x ∈ l, (p1 x).length = acc.length ∧ (p2 x).length = acc.length)
    (i : Nat) (hi : i < acc.length) :
    (l.foldl (fun a x => addAssignZip2 a (p1 x) (p2 x)) acc).getD i Poly.dflt =
      ⟨(acc.getD i Poly.dflt).ctx, (acc.getD i Poly.dflt).rep,
        (acc.getD i Poly.dflt).val +
          (l.map (fun x => ((p1 x).getD i Poly.dflt).val + ((p2 x).getD i Poly.dflt).val)).sum⟩ := by
  induction l generalizing acc with
  | nil => simp only [List.foldl_nil, List.map_nil, List.sum_nil, add_zero]
  | cons x xs ih =>
    rw [List.foldl_cons,
      ih (addAssignZip2 acc (p1 x) (p2 x))
        (fun y hy => by
          have := hl y (List.mem_cons_of_mem x hy)
          simpa using this)
        (by simpa using hi)]
    rw [getD_addAssignZip2 acc (p1 x) (p2 x) i hi
      (by rw [(hl x (List.mem_cons_self x xs)).1]; exact hi)
      (by rw [(hl x (List.mem_cons_self x xs)).2]; exact hi)]
    simp [add_assoc]

@[simp]
theorem canonVec_length {R : Type} (t : List (List Nat × Representation)) (v : Nat → R) :
    (canonVec t v).length = t.length := by
  simp [canonVec]

theorem canonVec_getD {R : Type} [CommRing R] (t : List (List Nat × Representation))
    (v : Nat → R) (i : Nat) (hi : i < t.length) :
    (canonVec t v).getD i Poly.dflt =
      ⟨(t.getD i tagDflt).1, (t.getD i tagDflt).2, v i⟩ := by
  rw [canonVec]
  rw [List.getD_eq_getElem?_getD, List.getElem?_map, List.getElem?_range hi]
  rfl

theorem canonVec_congr {R : Type} (t : List (List Nat × Representation))
    (v w : Nat → R) (h : ∀ i, i < t.length → v i = w i) :
    canonVec t v = canonVec t w := by
  rw [canonVec, canonVec]
  apply List.map_congr_left
  intro i hi
  rw [h i (by simpa using hi)]

/-- Tag-profile facts: a share vector whose mapped tags equal `t` has length
`t.length` and entrywise tags given by `t`. -/
theorem tagProfile_length {R : Type} (xs : List (Poly R))
    (t : List (List Nat × Representation)) (h : xs.map Poly.tag = t) :
    xs.length = t.length := by
  rw [← h, List.length_map]

theorem tagProfile_getD {R : Type} [CommRing R] (xs : List (Poly R))
    (t : List (List Nat × Representation)) (h : xs.map Poly.tag = t)
    (i : Nat) (hi : i < xs.length) :
    (xs.getD i Poly.dflt).ctx = (t.getD i tagDflt).1 ∧
    (xs.getD i Poly.dflt).rep = (t.getD i tagDflt).2 := by
  subst h
  rw [List.getD_eq_getElem?_getD, List.getD_eq_getElem?_getD, List.getElem?_map,
    List.getElem?_eq_getElem hi]
  exact ⟨rfl, rfl⟩

theorem colSum_cons {R σ : Type} [CommRing R] (proj : σ → List (Poly R)) (x : σ)
    (l : List σ) (i : Nat) :
    colSum proj (x :: l) i = ((proj x).getD i Poly.dflt).val + colSum proj l i := by
  simp [colSum]

/-- The Poly addition written out on its fields. -/
theorem Poly.add_eq {R : Type} [Add R] (p q : Poly R) :
    p + q = ⟨p.ctx, p.rep, p.val + q.val⟩ := rfl

/-- The vector fold of an aggregation, canonically: tags are the common tag
profile, values are the column sums over all shares including the initial
one. -/
theorem foldVec_canon {R σ : Type} [CommRing R] (proj : σ → List (Poly R)) (s : σ)
    (rest : List σ) (t : List (List Nat × Representation))
    (hprof : ∀ x ∈ s :: rest, (proj x).map Poly.tag = t) :
    rest.foldl (fun a x => addAssignZip a (proj x)) (proj s) =
      canonVec t (colSum proj (s :: rest)) := by
  have hst : (proj s).length = t.length :=
    tagProfile_length _ t (hprof s (List.mem_cons_self s rest))
  apply list_ext_getD Poly.dflt
  · rw [length_foldl_addAssignZip, canonVec_length, hst]
  · intro i hi
    rw [length_foldl_addAssignZip] at hi
    rw [getD_foldl_addAssignZip proj rest (proj s)
      (fun y hy => by
        rw [tagProfile_length _ t (hprof y (List.mem_cons_of_mem s hy)), hst]) i hi]
    rw [canonVec_getD t _ i (by rw [← hst]; exact hi)]
    obtain ⟨hc, hr⟩ := tagProfile_getD (proj s) t (hprof s (List.mem_cons_self s rest)) i hi
    rw [hc, hr, colSum_cons]

/-- `PublicKeySwitchShare` aggregation of a non-empty list, written out. -/
theorem pks_aggregate_cons {R : Type} [CommRing R] (s : PublicKeySwitchShare R)
    (rest : List (PublicKeySwitchShare R)) :
    PublicKeySwitchShare.aggregate (s :: rest) =
      Ciphertext.new
        [⟨s.c0.ctx, s.c0.rep, s.c0.val + ((s :: rest).map (fun sh => sh.h0_share.val)).sum⟩,
         ⟨s.h1_share.ctx, s.h1_share.rep, ((s :: rest).map (fun sh => sh.h1_share.val)).sum⟩]
        s.par := by
  show Ciphertext.new _ s.par = _
  rw [foldl_pair (fun (a : Poly R) sh => a + sh.h0_share)
    (fun (a : Poly R) sh => a + sh.h1_share) rest s.h0_share s.h1_share]
  rw [foldl_polyAdd (fun sh => sh.h0_share) rest s.h0_share,
    foldl_polyAdd (fun sh => sh.h1_share) rest s.h1_share]
  rw [Poly.add_eq]
  simp [add_assoc]

/-- Round-1 relin aggregation of a non-empty list, written out as the two
component folds. -/
theorem r1_aggregate_cons {R : Type} [CommRing R] (s : RelinKeyShare R Round.R1)
    (rest : List (RelinKeyShare R Round.R1)) :
    RelinKeyShare.r1_aggregate (s :: rest) =
      .ok (RelinKeyShare.mk s.par
        (rest.foldl (fun a sh => addAssignZip a sh.h0) s.h0)
        (rest.foldl (fun a sh => addAssignZip a sh.h1) s.h1) none) := by
  show Except.ok _ = _
  rw [foldl_pair (fun (a : List (Poly R)) sh => addAssignZip a sh.h0)
    (fun (a : List (Poly R)) sh => addAssignZip a sh.h1) rest s.h0 s.h1]

/-- Round-1 relin aggregation, canonically, for shares sharing the parameters
`p` and the tag profiles `t0`, `t1`. -/
theorem r1_aggregate_canon {R : Type} [CommRing R] (s : RelinKeyShare R Round.R1)
    (rest : List (RelinKeyShare R Round.R1)) (p : BfvParameters)
    (t0 t1 : List (List Nat × Representation))
    (hprof : ∀ sh ∈ s :: rest,
      sh.par = p ∧ sh.h0.map Poly.tag = t0 ∧ sh.h1.map Poly.tag = t1) :
    RelinKeyShare.r1_aggregate (s :: rest) =
      .ok (RelinKeyShare.mk p
        (canonVec t0 (colSum RelinKeyShare.h0 (s :: rest)))
        (canonVec t1 (colSum RelinKeyShare.h1 (s :: rest))) none) := by
  rw [r1_aggregate_cons,
    foldVec_canon RelinKeyShare.h0 s rest t0 (fun x hx => (hprof x hx).2.1),
    foldVec_canon RelinKeyShare.h1 s rest t1 (fun x hx => (hprof x hx).2.2),
    (hprof s (List.mem_cons_self s rest)).1]

/-- The level-0 context lookup succeeds exactly on a non-empty modulus chain,
returning the whole chain. -/
theorem ctxAtLevel_zero {par : BfvParameters} (hm : 0 < par.moduli.length) :
    ctxAtLevel par 0 = .ok par.moduli := by
  simp [ctxAtLevel, hm]

/-- Round-2 relin aggregation of a non-empty list whose first share embeds a
round-1 aggregation, written out. -/
theorem r2_aggregate_cons {R : Type} [CommRing R] (s : RelinKeyShare R Round.R2)
    (rest : List (RelinKeyShare R Round.R2)) (r1 : RelinKeyShare R Round.R1Aggregated)
    (hm : 0 < s.par.moduli.length) (hlr : s.last_round = some r1) :
    RelinKeyShare.r2_aggregate (s :: rest) =
      .ok ⟨⟨s.par, none,
        rest.foldl (fun acc sh => addAssignZip2 acc sh.h0 sh.h1) (addAssignZip s.h0 s.h1),
        r1.h1, 0, s.par.moduli, 0, s.par.moduli⟩⟩ := by
  show (do
    let ctx ← ctxAtLevel s.par 0
    let r1 ← okOr s.last_round (Error.DefaultError missingRound1Msg)
    Except.ok (⟨⟨s.par, none,
      rest.foldl (fun acc (sh : RelinKeyShare R Round.R2) =>
        addAssignZip2 acc sh.h0 sh.h1) (addAssignZip s.h0 s.h1),
      r1.h1, 0, ctx, 0, ctx⟩⟩ : RelinearizationKey R)) = _
  rw [ctxAtLevel_zero hm, hlr]
  rfl

/-- Round-2 relin aggregation fails with the missing-round-1 error when the
first share embeds no round-1 aggregation (whatever the trailing shares hold). -/
theorem r2_aggregate_missing {R : Type} [CommRing R] (s : RelinKeyShare R Round.R2)
    (rest : List (RelinKeyShare R Round.R2)) (hm : 0 < s.par.moduli.length)
    (hlr : s.last_round = none) :
    RelinKeyShare.r2_aggregate (s :: rest) =
      .error (.DefaultError missingRound1Msg) := by
  show (do
    let ctx ← ctxAtLevel s.par 0
    let r1 ← okOr s.last_round (Error.DefaultError missingRound1Msg)
    Except.ok (⟨⟨s.par, none,
      rest.foldl (fun acc (sh : RelinKeyShare R Round.R2) =>
        addAssignZip2 acc sh.h0 sh.h1) (addAssignZip s.h0 s.h1),
      r1.h1, 0, ctx, 0, ctx⟩⟩ : RelinearizationKey R)) = _
  rw [ctxAtLevel_zero hm, hlr]
  rfl

/-- Round-2 relin aggregation, canonically, for shares sharing the parameters
`p`, the embedded round-1 aggregation `r1` and the tag profiles `t0`, `t1` of
equal length: `c0` holds the column sums of `h0 + h1` over all shares and `c1`
is the embedded round-1 `h1`. -/
theorem r2_aggregate_canon {R : Type} [CommRing R] (s : RelinKeyShare R Round.R2)
    (rest : List (RelinKeyShare R Round.R2)) (p : BfvParameters)
    (r1 : RelinKeyShare R Round.R1Aggregated)
    (t0 t1 : List (List Nat × Representation)) (hm : 0 < p.moduli.length)
    (ht : t1.length = t0.length)
    (hprof : ∀ sh ∈ s :: rest, sh.par = p ∧ sh.last_round = some r1 ∧
      sh.h0.map Poly.tag = t0 ∧ sh.h1.map Poly.tag = t1) :
    RelinKeyShare.r2_aggregate (s :: rest) =
      .ok ⟨⟨p, none,
        canonVec t0 (colSum2 RelinKeyShare.h0 RelinKeyShare.h1 (s :: rest)),
        r1.h1, 0, p.moduli, 0, p.moduli⟩⟩ := by
  obtain ⟨hpar, hlr, ht0, ht1⟩ := hprof s (List.mem_cons_self s rest)
  have hs0 : s.h0.length = t0.length := tagProfile_length _ t0 ht0
  have hs1 : s.h1.length = t0.length := by
    rw [tagProfile_length _ t1 ht1]; exact ht
  rw [r2_aggregate_cons s rest r1 (by rw [hpar]; exact hm) hlr, hpar]
  have hinitlen : (addAssignZip s.h0 s.h1).length = s.h0.length := length_addAssignZip _ _
  have hvec : rest.foldl (fun acc sh => addAssignZip2 acc sh.h0 sh.h1)
      (addAssignZip s.h0 s.h1) =
      canonVec t0 (colSum2 RelinKeyShare.h0 RelinKeyShare.h1 (s :: rest)) := by
    apply list_ext_getD Poly.dflt
    · rw [length_foldl_addAssignZip2, hinitlen, canonVec_length, hs0]
    · intro i hi
      rw [length_foldl_addAssignZip2, hinitlen] at hi
      rw [getD_foldl_addAssignZip2 RelinKeyShare.h0 RelinKeyShare.h1 rest
        (addAssignZip s.h0 s.h1)
        (fun y hy => by
          obtain ⟨_, _, hy0, hy1⟩ := hprof y (List.mem_cons_of_mem s hy)
          constructor
          · rw [tagProfile_length _ t0 hy0, hinitlen, hs0]
          · rw [tagProfile_length _ t1 hy1, hinitlen, ht, ← hs0]) i
        (by rw [hinitlen]; exact hi)]
      rw [getD_addAssignZip s.h0 s.h1 i hi (by rw [hs1, ← hs0]; exact hi)]
      rw [canonVec_getD t0 _ i (by rw [← hs0]; exact hi)]
      obtain ⟨hc, hr⟩ := tagProfile_getD s.h0 t0 ht0 i hi
      rw [Poly.add_eq]
      simp only [colSum2, List.map_cons, List.sum_cons]
      rw [hc, hr]
  rw [hvec]

/-- Column sums are invariant under permutation of the shares. -/
theorem colSum_perm {R σ : Type} [CommRing R] (proj : σ → List (Poly R))
    {l1 l2 : List σ} (hp : l1.Perm l2) (i : Nat) :
    colSum proj l1 i = colSum proj l2 i :=
  (hp.map (fun sh => ((proj sh).getD i Poly.dflt).val)).sum_eq

/-- Double column sums are invariant under permutation of the shares. -/
theorem colSum2_perm {R σ : Type} [CommRing R] (p1 p2 : σ → List (Poly R))
    {l1 l2 : List σ} (hp : l1.Perm l2) (i : Nat) :
    colSum2 p1 p2 l1 i = colSum2 p1 p2 l2 i :=
  (hp.map (fun sh => ((p1 sh).getD i Poly.dflt).val + ((p2 sh).getD i Poly.dflt).val)).sum_eq

/-- Value sums are invariant under permutation of the shares. -/
theorem valSum_perm {R σ : Type} [CommRing R] (f : σ → R) {l1 l2 : List σ}
    (hp : l1.Perm l2) : (l1.map f).sum = (l2.map f).sum :=
  (hp.map f).sum_eq

/-- Collecting a list of successes succeeds with the list of their values. -/
theorem collectExcept_map_ok {ε α β : Type} (f : α → β) (l : List α) :
    collectExcept (l.map (fun x => (Except.ok (f x) : Except ε β))) = .ok (l.map f) := by
  induction l with
  | nil => rfl
  | cons x xs ih =>
    show (do
      let a ← (Except.ok (f x) : Except ε β)
      let as ← collectExcept (xs.map (fun x => (Except.ok (f x) : Except ε β)))
      Except.ok (a :: as)) = _
    rw [ih]
    rfl

/-- `getD` of a mapped range. -/
theorem rangeMap_getD {β : Type} (n : Nat) (f : Nat → β) (i : Nat) (d : β)
    (hi : i < n) : (((List.range n).map f).getD i d) = f i := by
  rw [List.getD_eq_getElem?_getD, List.getElem?_map, List.getElem?_range hi]
  rfl

@[simp]
theorem PublicKeySwitchShare.setPar_c0 {R : Type} (q : BfvParameters)
    (sh : PublicKeySwitchShare R) : (PublicKeySwitchShare.setPar q sh).c0 = sh.c0 := rfl

@[simp]
theorem PublicKeySwitchShare.setPar_h0_share {R : Type} (q : BfvParameters)
    (sh : PublicKeySwitchShare R) :
    (PublicKeySwitchShare.setPar q sh).h0_share = sh.h0_share := rfl

@[simp]
theorem PublicKeySwitchShare.setPar_h1_share {R : Type} (q : BfvParameters)
    (sh : PublicKeySwitchShare R) :
    (PublicKeySwitchShare.setPar q sh).h1_share = sh.h1_share := rfl

/-- Round-2 relin aggregation fails with the invalid-level error when the first
share's parameters have an empty modulus chain. -/
theorem r2_aggregate_badctx {R : Type} [CommRing R] (s : RelinKeyShare R Round.R2)
    (rest : List (RelinKeyShare R Round.R2)) (hm : ¬ 0 < s.par.moduli.length) :
    RelinKeyShare.r2_aggregate (s :: rest) = .error (.DefaultError invalidLevelMsg) := by
  have hz : s.par.moduli.length = 0 := Nat.eq_zero_of_not_pos hm
  have hctx : ctxAtLevel s.par 0 = .error (.DefaultError invalidLevelMsg) := by
    simp [ctxAtLevel, hz]
  show (do
    let ctx ← ctxAtLevel s.par 0
    let r1 ← okOr s.last_round (Error.DefaultError missingRound1Msg)
    Except.ok (⟨⟨s.par, none,
      rest.foldl (fun acc (sh : RelinKeyShare R Round.R2) =>
        addAssignZip2 acc sh.h0 sh.h1) (addAssignZip s.h0 s.h1),
      r1.h1, 0, ctx, 0, ctx⟩⟩ : RelinearizationKey R)) = _
  rw [hctx]
  rfl

/-- Entrywise description of `RelinKeyShare::<R1>::generate_h0`. -/
theorem r1_generate_h0_getD {R : Type} [CommRing R] (sk_share : SecretKey R)
    (crp : List (Poly R)) (u : Poly R) (garner es : Nat → R) (i : Nat)
    (hi : i < crp.length) :
    (RelinKeyShare.r1_generate_h0 sk_share crp u garner es).getD i Poly.dflt =
      ⟨(crp.getD i Poly.dflt).ctx, Representation.Ntt,
        (crp.getD i Poly.dflt).val * u.val + garner i * sk_share.coeffs + es i⟩ := by
  show (enumMapFrom _ 0 crp).getD i Poly.dflt = _
  rw [enumMapFrom_getD _ 0 crp i Poly.dflt Poly.dflt hi]
  simp only [Nat.zero_add]
  rfl

/-- Entrywise description of `RelinKeyShare::<R1>::generate_h1`. -/
theorem r1_generate_h1_getD {R : Type} [CommRing R] (sk_share : SecretKey R)
    (crp : List (Poly R)) (es : Nat → R) (i : Nat) (hi : i < crp.length) :
    (RelinKeyShare.r1_generate_h1 sk_share crp es).getD i Poly.dflt =
      ⟨(crp.getD i Poly.dflt).ctx, Representation.Ntt,
        (crp.getD i Poly.dflt).val * sk_share.coeffs + es i⟩ := by
  show (enumMapFrom _ 0 crp).getD i Poly.dflt = _
  rw [enumMapFrom_getD _ 0 crp i Poly.dflt Poly.dflt hi]
  simp only [Nat.zero_add]
  rfl

/-- Entrywise description of `RelinKeyShare::<R2>::generate_h0`. -/
theorem r2_generate_h0_getD {R : Type} [CommRing R] (sk_share : SecretKey R)
    (r1_h0 : List (Poly R)) (es : Nat → R) (i : Nat) (hi : i < r1_h0.length) :
    (RelinKeyShare.r2_generate_h0 sk_share r1_h0 es).getD i Poly.dflt =
      ⟨(r1_h0.getD i Poly.dflt).ctx, Representation.Ntt,
        (r1_h0.getD i Poly.dflt).val * sk_share.coeffs + es i⟩ := by
  show (enumMapFrom _ 0 r1_h0).getD i Poly.dflt = _
  rw [enumMapFrom_getD _ 0 r1_h0 i Poly.dflt Poly.dflt hi]
  simp only [Nat.zero_add]
  rfl

/-- Entrywise description of `RelinKeyShare::<R2>::generate_h1`. -/
theorem r2_generate_h1_getD {R : Type} [CommRing R] (sk_share : SecretKey R)
    (u : Poly R) (r1_h1 : List (Poly R)) (es : Nat → R) (i : Nat)
    (hi : i < r1_h1.length) :
    (RelinKeyShare.r2_generate_h1 sk_share u r1_h1 es).getD i Poly.dflt =
      ⟨(r1_h1.getD i Poly.dflt).ctx, Representation.Ntt,
        (r1_h1.getD i Poly.dflt).val * (u.val - sk_share.coeffs) + es i⟩ := by
  show (enumMapFrom _ 0 r1_h1).getD i Poly.dflt = _
  rw [enumMapFrom_getD _ 0 r1_h1 i Poly.dflt Poly.dflt hi]
  simp only [Nat.zero_add]
  rfl

/-- `RelinKeyShare::<R1>::new` on success, under a valid level-0 context and a
CRP vector of the right length. -/
theorem r1_new_ok {R : Type} [CommRing R] (sk_share : SecretKey R)
    (crp : List (Poly R)) (u : Poly R) (garner e0s e1s : Nat → R)
    (hm : 0 < sk_share.par.moduli.length)
    (heq : crp.length = sk_share.par.moduli.length) :
    RelinKeyShare.r1_new sk_share crp u garner e0s e1s =
      .ok (RelinKeyShare.mk sk_share.par
        (RelinKeyShare.r1_generate_h0 sk_share crp u garner e0s)
        (RelinKeyShare.r1_generate_h1 sk_share crp e1s) none) := by
  show (do
    let ctx ← ctxAtLevel sk_share.par 0
    if crp.length ≠ ctx.length then
      Except.error (.DefaultError crpSizeMsg)
    else
      Except.ok (RelinKeyShare.mk sk_share.par
        (RelinKeyShare.r1_generate_h0 sk_share crp u garner e0s)
        (RelinKeyShare.r1_generate_h1 sk_share crp e1s) none)) = _
  rw [ctxAtLevel_zero hm]
  show (if crp.length ≠ sk_share.par.moduli.length then _ else _) = _
  rw [if_neg (by rw [heq]; exact fun hc => hc rfl)]

/-- `RelinKeyShare::<R1>::new` on a CRP vector of the wrong length, under a
valid level-0 context: the constant length-mismatch error, whatever the secret,
mask, weights and error draws are. -/
theorem r1_new_mismatch {R : Type} [CommRing R] (sk_share : SecretKey R)
    (crp : List (Poly R)) (u : Poly R) (garner e0s e1s : Nat → R)
    (hm : 0 < sk_share.par.moduli.length)
    (hne : crp.length ≠ sk_share.par.moduli.length) :
    RelinKeyShare.r1_new sk_share crp u garner e0s e1s =
      .error (.DefaultError crpSizeMsg) := by
  show (do
    let ctx ← ctxAtLevel sk_share.par 0
    if crp.length ≠ ctx.length then
      Except.error (.DefaultError crpSizeMsg)
    else
      Except.ok (RelinKeyShare.mk sk_share.par
        (RelinKeyShare.r1_generate_h0 sk_share crp u garner e0s)
        (RelinKeyShare.r1_generate_h1 sk_share crp e1s) none)) = _
  rw [ctxAtLevel_zero hm]
  show (if crp.length ≠ sk_share.par.moduli.length then _ else _) = _
  rw [if_pos hne]

/-- `RelinKeyShare::<R2>::new` on success, under a valid level-0 context. -/
theorem r2_new_ok {R : Type} [CommRing R] (sk_share : SecretKey R) (u : Poly R)
    (r1 : RelinKeyShare R Round.R1Aggregated) (e0s e1s : Nat → R)
    (hm : 0 < sk_share.par.moduli.length) :
    RelinKeyShare.r2_new sk_share u r1 e0s e1s =
      .ok (RelinKeyShare.mk sk_share.par
        (RelinKeyShare.r2_generate_h0 sk_share r1.h0 e0s)
        (RelinKeyShare.r2_generate_h1 sk_share u r1.h1 e1s) (some r1)) := by
  show (do
    let _ ← ctxAtLevel sk_share.par 0
    Except.ok (RelinKeyShare.mk sk_share.par
      (RelinKeyShare.r2_generate_h0 sk_share r1.h0 e0s)
      (RelinKeyShare.r2_generate_h1 sk_share u r1.h1 e1s) (some r1))) = _
  rw [ctxAtLevel_zero hm]
  rfl

/-- Column sums split over list concatenation. -/
theorem colSum_append {R σ : Type} [CommRing R] (proj : σ → List (Poly R))
    (l1 l2 : List σ) (i : Nat) :
    colSum proj (l1 ++ l2) i = colSum proj l1 i + colSum proj l2 i := by
  simp [colSum]

/-- The element-wise sum of two canonical vectors over the same tag profile. -/
theorem addAssignZip_canonVec {R : Type} [CommRing R]
    (t : List (List Nat × Representation)) (v w : Nat → R) :
    addAssignZip (canonVec t v) (canonVec t w) = canonVec t (fun i => v i + w i) := by
  apply list_ext_getD Poly.dflt
  · rw [length_addAssignZip, canonVec_length, canonVec_length]
  · intro i hi
    rw [length_addAssignZip, canonVec_length] at hi
    rw [getD_addAssignZip _ _ i (by rw [canonVec_length]; exact hi)
        (by rw [canonVec_length]; exact hi),
      canonVec_getD t v i hi, canonVec_getD t w i hi, canonVec_getD t _ i hi,
      Poly.add_eq]

/-! Claim theorems. -/

/-- C7: for every share type implementing `Aggregate` (`PublicKeySwitchShare`,
`RelinKeyShare<R1>`, `RelinKeyShare<R2>`), aggregating an empty collection
fails with the `TooFewValues(0, 1)` error and produces no output. -/
theorem thm_C7 (R : Type) [CommRing R] :
    PublicKeySwitchShare.aggregate ([] : List (PublicKeySwitchShare R)) =
        .error (.TooFewValues 0 1) ∧
    RelinKeyShare.r1_aggregate ([] : List (RelinKeyShare R Round.R1)) =
        .error (.TooFewValues 0 1) ∧
    RelinKeyShare.r2_aggregate ([] : List (RelinKeyShare R Round.R2)) =
        .error (.TooFewValues 0 1) :=
  ⟨rfl, rfl, rfl⟩

/-- C7, instantiated at `R = ℤ`. -/
theorem witness_C7 :
    PublicKeySwitchShare.aggregate ([] : List (PublicKeySwitchShare Int)) =
        .error (.TooFewValues 0 1) ∧
    RelinKeyShare.r1_aggregate ([] : List (RelinKeyShare Int Round.R1)) =
        .error (.TooFewValues 0 1) ∧
    RelinKeyShare.r2_aggregate ([] : List (RelinKeyShare Int Round.R2)) =
        .error (.TooFewValues 0 1) :=
  thm_C7 Int

/-- C9: `PublicKeySwitchShare::new` fails with the parameters-mismatch error
whenever the secret-key share, public key, and ciphertext do not all reference
the same `Parameters`; the result is this constant error whatever the secret,
the sampled mask and errors and the external modulus switch do, so the check
happens before any computation on secret-derived material. -/
theorem thm_C9 (R : Type) [CommRing R] (sk_share : SecretKey R)
    (public_key : PublicKey R) (ct : Ciphertext R) (u e0 e1 : R)
    (modSwitch : Ciphertext R → Except Error (Ciphertext R))
    (h : ¬(sk_share.par = public_key.par ∧ public_key.par = ct.par)) :
    PublicKeySwitchShare.new sk_share public_key ct u e0 e1 modSwitch =
      .error (.DefaultError incompatibleParamsMsg) := by
  have h' : sk_share.par ≠ public_key.par ∨ public_key.par ≠ ct.par := by tauto
  simp only [PublicKeySwitchShare.new, if_pos h']

/-- C9, at a concrete mismatched input over `ℤ`. -/
theorem witness_C9 :
    ¬(skB.par = pkA.par ∧ pkA.par = ctA.par) ∧
    PublicKeySwitchShare.new skB pkA ctA 1 1 1 (fun c => .ok c) =
      .error (.DefaultError incompatibleParamsMsg) :=
  ⟨by decide, thm_C9 Int skB pkA ctA 1 1 1 (fun c => .ok c) (by decide)⟩

/-- C2 (counterexample): aggregating two round-1 relin shares produced under
two distinct `Parameters` instances does not fail with a parameter-mismatch
error — it succeeds. -/
theorem cex_C2 :
    r1A.par ≠ r1B.par ∧
    exceptIsOk (RelinKeyShare.r1_aggregate [r1A, r1B]) = true :=
  ⟨by decide, rfl⟩

/-- C2 (amended): share aggregation performs no `Parameters` check at all: the
result never depends on the trailing shares' `Parameters` (for every share
type), and round-1 relin aggregation of any non-empty list succeeds outright,
mismatched parameters included; only the first share's `Parameters` reach the
output. -/
theorem thm_C2 (R : Type) [CommRing R] :
    (∀ (s : RelinKeyShare R Round.R1) (rest : List (RelinKeyShare R Round.R1)),
      exceptIsOk (RelinKeyShare.r1_aggregate (s :: rest)) = true)
    ∧ (∀ (s : RelinKeyShare R Round.R1) (rest : List (RelinKeyShare R Round.R1))
        (q : BfvParameters),
      RelinKeyShare.r1_aggregate (s :: rest) =
        RelinKeyShare.r1_aggregate (s :: rest.map (RelinKeyShare.setPar q)))
    ∧ (∀ (s : RelinKeyShare R Round.R2) (rest : List (RelinKeyShare R Round.R2))
        (q : BfvParameters),
      RelinKeyShare.r2_aggregate (s :: rest) =
        RelinKeyShare.r2_aggregate (s :: rest.map (RelinKeyShare.setPar q)))
    ∧ (∀ (s : PublicKeySwitchShare R) (rest : List (PublicKeySwitchShare R))
        (q : BfvParameters),
      PublicKeySwitchShare.aggregate (s :: rest) =
        PublicKeySwitchShare.aggregate (s :: rest.map (PublicKeySwitchShare.setPar q))) := by
  refine ⟨fun s rest => ?_, fun s rest q => ?_, fun s rest q => ?_, fun s rest q => ?_⟩
  · rw [r1_aggregate_cons]
    rfl
  · rw [r1_aggregate_cons, r1_aggregate_cons]
    simp only [List.foldl_map, RelinKeyShare.setPar_h0, RelinKeyShare.setPar_h1]
  · show (do
      let ctx ← ctxAtLevel s.par 0
      let r1 ← okOr s.last_round (Error.DefaultError missingRound1Msg)
      Except.ok (⟨⟨s.par, none,
        rest.foldl (fun acc (sh : RelinKeyShare R Round.R2) =>
          addAssignZip2 acc sh.h0 sh.h1) (addAssignZip s.h0 s.h1),
        r1.h1, 0, ctx, 0, ctx⟩⟩ : RelinearizationKey R)) =
      (do
      let ctx ← ctxAtLevel s.par 0
      let r1 ← okOr s.last_round (Error.DefaultError missingRound1Msg)
      Except.ok (⟨⟨s.par, none,
        (rest.map (RelinKeyShare.setPar q)).foldl
          (fun acc (sh : RelinKeyShare R Round.R2) =>
            addAssignZip2 acc sh.h0 sh.h1) (addAssignZip s.h0 s.h1),
        r1.h1, 0, ctx, 0, ctx⟩⟩ : RelinearizationKey R))
    simp only [List.foldl_map, RelinKeyShare.setPar_h0, RelinKeyShare.setPar_h1]
  · rw [pks_aggregate_cons, pks_aggregate_cons]
    simp only [PublicKeySwitchShare.setPar_c0, List.map_cons, List.map_map,
      Function.comp_def, PublicKeySwitchShare.setPar_h0_share, PublicKeySwitchShare.setPar_h1_share]

/-- C2 (amended), at a concrete mixed-parameters aggregation over `ℤ`. -/
theorem witness_C2 :
    exceptIsOk (RelinKeyShare.r1_aggregate (r1A :: [r1B])) = true :=
  (thm_C2 Int).1 r1A [r1B]

/-- C10: every relinearization key produced by round-2 relin aggregation is
pinned to level 0: both levels of its key-switching key are `0` and both its
contexts equal its parameters' level-0 context. -/
theorem thm_C10 (R : Type) [CommRing R] (shares : List (RelinKeyShare R Round.R2))
    (rk : RelinearizationKey R)
    (h : RelinKeyShare.r2_aggregate shares = .ok rk) :
    rk.ksk.ciphertext_level = 0 ∧ rk.ksk.ksk_level = 0 ∧
    ctxAtLevel rk.ksk.par 0 = .ok rk.ksk.ctx_ciphertext ∧
    rk.ksk.ctx_ksk = rk.ksk.ctx_ciphertext := by
  cases shares with
  | nil => simp [RelinKeyShare.r2_aggregate] at h
  | cons s rest =>
    by_cases hm : 0 < s.par.moduli.length
    · cases hlr : s.last_round with
      | none =>
        rw [r2_aggregate_missing s rest hm hlr] at h
        simp at h
      | some r1 =>
        rw [r2_aggregate_cons s rest r1 hm hlr] at h
        have hrk := Except.ok.inj h
        subst hrk
        exact ⟨rfl, rfl, ctxAtLevel_zero hm, rfl⟩
    · rw [r2_aggregate_badctx s rest hm] at h
      simp at h

/-- C10, at a concrete aggregation over `ℤ`. -/
theorem witness_C10 :
    RelinKeyShare.r2_aggregate [r2A] =
      .ok (⟨⟨parA, none, [pA 3], [pA 6], 0, [5], 0, [5]⟩⟩ : RelinearizationKey Int) ∧
    ((⟨⟨parA, none, [pA 3], [pA 6], 0, [5], 0, [5]⟩⟩ : RelinearizationKey Int).ksk.ciphertext_level = 0 ∧
      (⟨⟨parA, none, [pA 3], [pA 6], 0, [5], 0, [5]⟩⟩ : RelinearizationKey Int).ksk.ksk_level = 0 ∧
      ctxAtLevel (⟨⟨parA, none, [pA 3], [pA 6], 0, [5], 0, [5]⟩⟩ : RelinearizationKey Int).ksk.par 0 =
        .ok (⟨⟨parA, none, [pA 3], [pA 6], 0, [5], 0, [5]⟩⟩ : RelinearizationKey Int).ksk.ctx_ciphertext ∧
      (⟨⟨parA, none, [pA 3], [pA 6], 0, [5], 0, [5]⟩⟩ : RelinearizationKey Int).ksk.ctx_ksk =
        (⟨⟨parA, none, [pA 3], [pA 6], 0, [5], 0, [5]⟩⟩ : RelinearizationKey Int).ksk.ctx_ciphertext) :=
  ⟨rfl, thm_C10 Int [r2A] _ rfl⟩

/-- C1 (counterexample): final round-2 aggregation does not require every
share's embedded round-1 object: with the second share's `last_round` absent it
still succeeds. -/
theorem cex_C1 :
    r2B.last_round = none ∧
    exceptIsOk (RelinKeyShare.r2_aggregate [r2A, r2B]) = true :=
  ⟨rfl, rfl⟩

/-- C1 (amended): for every non-empty sequence of round-2 relin shares, final
aggregation requires the first share's embedded round-1 aggregated object,
failing with the typed missing-round-1 error when it is absent; on success the
key-switching key has `c0` equal to the element-wise sum over all shares of
`h0' + h1'` and `c1` equal to the first share's embedded round-1 `h1`. -/
theorem thm_C1 (R : Type) [CommRing R] (s : RelinKeyShare R Round.R2)
    (rest : List (RelinKeyShare R Round.R2)) (r1 : RelinKeyShare R Round.R1Aggregated)
    (hm : 0 < s.par.moduli.length) (hlr : s.last_round = some r1)
    (hlen1 : s.h1.length = s.h0.length)
    (hlen : ∀ sh ∈ rest, sh.h0.length = s.h0.length ∧ sh.h1.length = s.h0.length) :
    exceptIsOk (RelinKeyShare.r2_aggregate (s :: rest)) = true ∧
    (∀ rk, RelinKeyShare.r2_aggregate (s :: rest) = .ok rk →
      rk.ksk.c1 = r1.h1 ∧
      rk.ksk.c0.length = s.h0.length ∧
      (∀ i, i < s.h0.length →
        (rk.ksk.c0.getD i Poly.dflt).val =
          ((s :: rest).map
            (fun sh => (sh.h0.getD i Poly.dflt).val + (sh.h1.getD i Poly.dflt).val)).sum)) ∧
    (∀ (s' : RelinKeyShare R Round.R2) (rest' : List (RelinKeyShare R Round.R2)),
      s'.last_round = none → 0 < s'.par.moduli.length →
      RelinKeyShare.r2_aggregate (s' :: rest') =
        .error (.DefaultError missingRound1Msg)) ∧
    RelinKeyShare.r2_aggregate ([] : List (RelinKeyShare R Round.R2)) =
      .error (.TooFewValues 0 1) := by
  refine ⟨?_, ?_, fun s' rest' hno hm' => r2_aggregate_missing s' rest' hm' hno, rfl⟩
  · rw [r2_aggregate_cons s rest r1 hm hlr]
    rfl
  · intro rk h
    rw [r2_aggregate_cons s rest r1 hm hlr] at h
    have hrk := Except.ok.inj h
    subst hrk
    refine ⟨rfl, ?_, ?_⟩
    · show (rest.foldl _ (addAssignZip s.h0 s.h1)).length = s.h0.length
      rw [length_foldl_addAssignZip2 RelinKeyShare.h0 RelinKeyShare.h1,
        length_addAssignZip]
    · intro i hi
      show ((rest.foldl _ (addAssignZip s.h0 s.h1)).getD i Poly.dflt).val = _
      rw [getD_foldl_addAssignZip2 RelinKeyShare.h0 RelinKeyShare.h1 rest
        (addAssignZip s.h0 s.h1)
        (fun y hy => by
          obtain ⟨hy0, hy1⟩ := hlen y hy
          rw [length_addAssignZip]
          exact ⟨hy0, hy1⟩) i
        (by rw [length_addAssignZip]; exact hi)]
      rw [getD_addAssignZip s.h0 s.h1 i hi (by rw [hlen1]; exact hi)]
      simp [List.map_cons, List.sum_cons]

/-- C1 (amended), at a concrete two-share aggregation over `ℤ`. -/
theorem witness_C1 :
    r2A.last_round = some aggAB ∧
    exceptIsOk (RelinKeyShare.r2_aggregate [r2A, r2C]) = true :=
  ⟨rfl,
    (thm_C1 Int r2A [r2C] aggAB (by decide) rfl rfl
      (fun sh hsh => by
        have hx := List.mem_singleton.mp hsh
        subst hx
        exact ⟨rfl, rfl⟩)).1⟩

/-- C3: round 1 of relin-key generation, with a CRP vector matching the number
of level-0 ciphertext moduli, outputs `h0`/`h1` with one entry per modulus,
`h0_i = CRP_i·u + w_i·s + e_i` and `h1_i = CRP_i·s + e'_i` (with `w_i` the RNS
Garner weight and `e_i`, `e'_i` the fresh error draws); a length mismatch
yields the typed length error — a constant, independent of all secret-derived
inputs. -/
theorem thm_C3 (R : Type) [CommRing R] (sk_share : SecretKey R)
    (crp : List (Poly R)) (u : Poly R) (garner e0s e1s : Nat → R)
    (hm : 0 < sk_share.par.moduli.length) :
    (crp.length = sk_share.par.moduli.length →
      exceptIsOk (RelinKeyShare.r1_new sk_share crp u garner e0s e1s) = true ∧
      (∀ share, RelinKeyShare.r1_new sk_share crp u garner e0s e1s = .ok share →
        share.h0.length = sk_share.par.moduli.length ∧
        share.h1.length = sk_share.par.moduli.length ∧
        (∀ i, i < crp.length →
          share.h0.getD i Poly.dflt =
            ⟨(crp.getD i Poly.dflt).ctx, Representation.Ntt,
              (crp.getD i Poly.dflt).val * u.val + garner i * sk_share.coeffs + e0s i⟩ ∧
          share.h1.getD i Poly.dflt =
            ⟨(crp.getD i Poly.dflt).ctx, Representation.Ntt,
              (crp.getD i Poly.dflt).val * sk_share.coeffs + e1s i⟩))) ∧
    (crp.length ≠ sk_share.par.moduli.length →
      RelinKeyShare.r1_new sk_share crp u garner e0s e1s =
        .error (.DefaultError crpSizeMsg)) := by
  constructor
  · intro heq
    rw [r1_new_ok sk_share crp u garner e0s e1s hm heq]
    refine ⟨rfl, fun share h => ?_⟩
    have hsh := Except.ok.inj h
    subst hsh
    refine ⟨?_, ?_, fun i hi => ⟨?_, ?_⟩⟩
    · show (enumMapFrom _ 0 crp).length = _
      rw [enumMapFrom_length, heq]
    · show (enumMapFrom _ 0 crp).length = _
      rw [enumMapFrom_length, heq]
    · exact r1_generate_h0_getD sk_share crp u garner e0s i hi
    · exact r1_generate_h1_getD sk_share crp e1s i hi
  · exact r1_new_mismatch sk_share crp u garner e0s e1s hm

/-- C3, at a concrete one-modulus input over `ℤ`. -/
theorem witness_C3 :
    0 < skA.par.moduli.length ∧
    exceptIsOk (RelinKeyShare.r1_new skA [pA 9] (pA 1)
      (fun _ => (1 : Int)) (fun _ => 0) (fun _ => 0)) = true :=
  ⟨by decide,
    ((thm_C3 Int skA [pA 9] (pA 1) (fun _ => 1) (fun _ => 0) (fun _ => 0)
      (by decide)).1 (by decide)).1⟩

/-- C4: a round-2 relin share produced by `RelinKeyGenerator::round_2` from an
aggregated round-1 object satisfies `h0'_i = agg_h0_i·s + e_i` and
`h1'_i = agg_h1_i·(u − s) + e'_i`, with `u` the single ephemeral mask stored in
the generator — the same one whose value appears in that party's round-1
shares — and it embeds an owned copy of exactly the aggregated round-1 object
it consumed. -/
theorem thm_C4 (R : Type) [CommRing R] (g : RelinKeyGenerator R)
    (r1agg : RelinKeyShare R Round.R1Aggregated) (e0s e1s : Nat → R)
    (hm : 0 < g.sk_share.par.moduli.length) :
    exceptIsOk (g.round_2 r1agg e0s e1s) = true ∧
    (∀ share, g.round_2 r1agg e0s e1s = .ok share →
      share.last_round = some r1agg ∧
      share.h0.length = r1agg.h0.length ∧
      share.h1.length = r1agg.h1.length ∧
      (∀ i, i < r1agg.h0.length →
        share.h0.getD i Poly.dflt =
          ⟨(r1agg.h0.getD i Poly.dflt).ctx, Representation.Ntt,
            (r1agg.h0.getD i Poly.dflt).val * g.sk_share.coeffs + e0s i⟩) ∧
      (∀ i, i < r1agg.h1.length →
        share.h1.getD i Poly.dflt =
          ⟨(r1agg.h1.getD i Poly.dflt).ctx, Representation.Ntt,
            (r1agg.h1.getD i Poly.dflt).val * (g.u.val - g.sk_share.coeffs) + e1s i⟩)) ∧
    (∀ (garner f0 f1 : Nat → R) sh1, g.round_1 garner f0 f1 = .ok sh1 →
      ∀ i, i < g.crp.length →
        sh1.h0.getD i Poly.dflt =
          ⟨(g.crp.getD i Poly.dflt).ctx, Representation.Ntt,
            (g.crp.getD i Poly.dflt).val * g.u.val + garner i * g.sk_share.coeffs + f0 i⟩) := by
  refine ⟨?_, ?_, ?_⟩
  · show exceptIsOk (RelinKeyShare.r2_new g.sk_share g.u r1agg e0s e1s) = true
    rw [r2_new_ok g.sk_share g.u r1agg e0s e1s hm]
    rfl
  · intro share h
    rw [show g.round_2 r1agg e0s e1s = RelinKeyShare.r2_new g.sk_share g.u r1agg e0s e1s
        from rfl,
      r2_new_ok g.sk_share g.u r1agg e0s e1s hm] at h
    have hsh := Except.ok.inj h
    subst hsh
    refine ⟨rfl, ?_, ?_, fun i hi => ?_, fun i hi => ?_⟩
    · show (enumMapFrom _ 0 r1agg.h0).length = _
      rw [enumMapFrom_length]
    · show (enumMapFrom _ 0 r1agg.h1).length = _
      rw [enumMapFrom_length]
    · exact r2_generate_h0_getD g.sk_share r1agg.h0 e0s i hi
    · exact r2_generate_h1_getD g.sk_share g.u r1agg.h1 e1s i hi
  · intro garner f0 f1 sh1 h i hi
    rw [show g.round_1 garner f0 f1 =
        RelinKeyShare.r1_new g.sk_share g.crp g.u garner f0 f1 from rfl] at h
    by_cases heq : g.crp.length = g.sk_share.par.moduli.length
    · rw [r1_new_ok g.sk_share g.crp g.u garner f0 f1 hm heq] at h
      have hsh := Except.ok.inj h
      subst hsh
      exact r1_generate_h0_getD g.sk_share g.crp g.u garner f0 i hi
    · rw [r1_new_mismatch g.sk_share g.crp g.u garner f0 f1 hm heq] at h
      simp at h

/-- C4, at a concrete generator over `ℤ`. -/
theorem witness_C4 :
    0 < genC.sk_share.par.moduli.length ∧
    exceptIsOk (genC.round_2 aggAB (fun _ => (0 : Int)) (fun _ => 0)) = true :=
  ⟨by decide, (thm_C4 Int genC aggAB (fun _ => 0) (fun _ => 0) (by decide)).1⟩

/-- C8: for every valid parameter set (non-empty modulus chain) and
caller-supplied randomness, `generate_crp_vec` succeeds and returns exactly one
polynomial per ciphertext modulus, each a uniform draw at the level-0 context
in NTT (evaluation) representation. -/
theorem thm_C8 (R : Type) [CommRing R] (par : BfvParameters) (rng : Nat → R)
    (hm : 0 < par.moduli.length) :
    ctxAtLevel par 0 = .ok par.moduli ∧
    generate_crp_vec par rng =
      .ok ((List.range par.moduli.length).map
        (fun i => Poly.random par.moduli Representation.Ntt (rng i))) ∧
    (∀ l, generate_crp_vec par rng = .ok l →
      l.length = par.moduli.length ∧
      (∀ i, i < par.moduli.length →
        l.getD i Poly.dflt = ⟨par.moduli, Representation.Ntt, rng i⟩)) := by
  have hone : ∀ i : Nat, generate_crp_leveled par 0 (rng i) =
      (.ok (Poly.random par.moduli Representation.Ntt (rng i)) : Except Error (Poly R)) := by
    intro i
    show (do
      let ctx ← ctxAtLevel par 0
      Except.ok (Poly.random ctx Representation.Ntt (rng i))) = _
    rw [ctxAtLevel_zero hm]
    rfl
  have hvec : generate_crp_vec par rng =
      .ok ((List.range par.moduli.length).map
        (fun i => Poly.random par.moduli Representation.Ntt (rng i))) := by
    rw [generate_crp_vec,
      List.map_congr_left (fun i _ => hone i),
      collectExcept_map_ok (fun i => Poly.random par.moduli Representation.Ntt (rng i))]
  refine ⟨ctxAtLevel_zero hm, hvec, fun l h => ?_⟩
  rw [hvec] at h
  have hl := Except.ok.inj h
  subst hl
  constructor
  · rw [List.length_map, List.length_range]
  · intro i hi
    rw [rangeMap_getD par.moduli.length _ i Poly.dflt hi]
    rfl

/-- C8, at a concrete one-modulus parameter set over `ℤ`. -/
theorem witness_C8 :
    0 < parA.moduli.length ∧
    generate_crp_vec parA (fun i => (i : Int)) =
      .ok ((List.range parA.moduli.length).map
        (fun i => Poly.random parA.moduli Representation.Ntt ((i : Int)))) :=
  ⟨by decide, (thm_C8 Int parA (fun i => (i : Int)) (by decide)).2.1⟩

/-- C5: aggregating a non-empty sequence of `PublicKeySwitchShare` values
(whose ring elements live at a context the first share's parameters accept, as
every share built by `PublicKeySwitchShare::new` does) returns the ciphertext
`(c0 + Σ h0_share, Σ h1_share)`, where `c0` is the first share's stored copy of
the input ciphertext's first component and the sums run over all shares. -/
theorem thm_C5 (R : Type) [CommRing R] (s : PublicKeySwitchShare R)
    (rest : List (PublicKeySwitchShare R))
    (hc : ctxAtLevel s.par (s.par.moduli.length - s.c0.ctx.length) = .ok s.c0.ctx)
    (h1c : s.h1_share.ctx = s.c0.ctx) :
    PublicKeySwitchShare.aggregate (s :: rest) =
      .ok ⟨s.par,
        [⟨s.c0.ctx, s.c0.rep,
          s.c0.val + ((s :: rest).map (fun sh => sh.h0_share.val)).sum⟩,
         ⟨s.h1_share.ctx, s.h1_share.rep,
          ((s :: rest).map (fun sh => sh.h1_share.val)).sum⟩],
        s.par.moduli.length - s.c0.ctx.length⟩ := by
  rw [pks_aggregate_cons, Ciphertext.new]
  rw [if_pos]
  · rw [h1c]
    rfl
  · refine ⟨by norm_num, by norm_num, ?_, ?_⟩
    · simp [h1c]
    · simpa using hc

/-- C5, at a concrete two-share aggregation over `ℤ`. -/
theorem witness_C5 :
    ctxAtLevel pksA.par (pksA.par.moduli.length - pksA.c0.ctx.length) = .ok pksA.c0.ctx ∧
    pksA.h1_share.ctx = pksA.c0.ctx ∧
    PublicKeySwitchShare.aggregate [pksA, pksB] =
      .ok ⟨pksA.par,
        [⟨pksA.c0.ctx, pksA.c0.rep,
          pksA.c0.val + (([pksA, pksB]).map (fun sh => sh.h0_share.val)).sum⟩,
         ⟨pksA.h1_share.ctx, pksA.h1_share.rep,
          (([pksA, pksB]).map (fun sh => sh.h1_share.val)).sum⟩],
        pksA.par.moduli.length - pksA.c0.ctx.length⟩ :=
  ⟨rfl, rfl, thm_C5 Int pksA [pksB] rfl rfl⟩

/-- C6: aggregation is order-independent. For each share type, aggregating any
permutation of a list of shares that agree on the data a built share under
fixed parameters carries (the parameters; for `PublicKeySwitchShare` the stored
`c0` and the tags of its ring elements; for relin shares the tag profiles of
`h0`/`h1`, of common length, and for round 2 the embedded round-1 object)
yields the bit-identical output; and round-1 relin aggregation regroups: the
aggregate of a concatenation is the element-wise sum of the two partial
aggregates, as a tree-reduce would compute it. -/
theorem thm_C6 (R : Type) [CommRing R] :
    (∀ (l1 l2 : List (PublicKeySwitchShare R)) (p : BfvParameters) (c0 : Poly R)
        (t0 t1 : List Nat × Representation),
      l1.Perm l2 →
      (∀ sh ∈ l1, sh.par = p ∧ sh.c0 = c0 ∧
        Poly.tag sh.h0_share = t0 ∧ Poly.tag sh.h1_share = t1) →
      PublicKeySwitchShare.aggregate l1 = PublicKeySwitchShare.aggregate l2)
    ∧ (∀ (l1 l2 : List (RelinKeyShare R Round.R1)) (p : BfvParameters)
        (t0 t1 : List (List Nat × Representation)),
      l1.Perm l2 →
      (∀ sh ∈ l1, sh.par = p ∧ sh.h0.map Poly.tag = t0 ∧ sh.h1.map Poly.tag = t1) →
      RelinKeyShare.r1_aggregate l1 = RelinKeyShare.r1_aggregate l2)
    ∧ (∀ (l1 l2 : List (RelinKeyShare R Round.R2)) (p : BfvParameters)
        (lr : Option (RelinKeyShare R Round.R1Aggregated))
        (t0 t1 : List (List Nat × Representation)),
      l1.Perm l2 → t1.length = t0.length →
      (∀ sh ∈ l1, sh.par = p ∧ sh.last_round = lr ∧
        sh.h0.map Poly.tag = t0 ∧ sh.h1.map Poly.tag = t1) →
      RelinKeyShare.r2_aggregate l1 = RelinKeyShare.r2_aggregate l2)
    ∧ (∀ (l1 l2 : List (RelinKeyShare R Round.R1)) (p : BfvParameters)
        (t0 t1 : List (List Nat × Representation))
        (a1 a2 : RelinKeyShare R Round.R1Aggregated),
      (∀ sh ∈ l1 ++ l2, sh.par = p ∧ sh.h0.map Poly.tag = t0 ∧
        sh.h1.map Poly.tag = t1) →
      RelinKeyShare.r1_aggregate l1 = .ok a1 →
      RelinKeyShare.r1_aggregate l2 = .ok a2 →
      RelinKeyShare.r1_aggregate (l1 ++ l2) =
        .ok (RelinKeyShare.mk p (addAssignZip a1.h0 a2.h0)
          (addAssignZip a1.h1 a2.h1) none)) := by
  refine ⟨?_, ?_, ?_, ?_⟩
  · intro l1 l2 p c0 t0 t1 hp hprof
    cases l1 with
    | nil =>
      have h2 : l2 = [] := hp.symm.eq_nil
      subst h2
      rfl
    | cons s rest =>
      have hne2 : l2 ≠ [] := by
        intro h
        subst h
        have := hp.length_eq
        simp at this
      obtain ⟨s2, rest2, rfl⟩ := List.exists_cons_of_ne_nil hne2
      have hprof2 : ∀ sh ∈ s2 :: rest2, sh.par = p ∧ sh.c0 = c0 ∧
          Poly.tag sh.h0_share = t0 ∧ Poly.tag sh.h1_share = t1 :=
        fun sh hsh => hprof sh (hp.mem_iff.mpr hsh)
      obtain ⟨hpar1, hc01, ht01, ht11⟩ := hprof s (List.mem_cons_self s rest)
      obtain ⟨hpar2, hc02, ht02, ht12⟩ := hprof2 s2 (List.mem_cons_self s2 rest2)
      have h1t := ht11.trans ht12.symm
      have hctx : s.h1_share.ctx = s2.h1_share.ctx := congrArg Prod.fst h1t
      have hrep : s.h1_share.rep = s2.h1_share.rep := congrArg Prod.snd h1t
      rw [pks_aggregate_cons, pks_aggregate_cons, hpar1, hpar2, hc01, hc02,
        hctx, hrep,
        valSum_perm (fun sh => sh.h0_share.val) hp,
        valSum_perm (fun sh => sh.h1_share.val) hp]
  · intro l1 l2 p t0 t1 hp hprof
    cases l1 with
    | nil =>
      have h2 : l2 = [] := hp.symm.eq_nil
      subst h2
      rfl
    | cons s rest =>
      have hne2 : l2 ≠ [] := by
        intro h
        subst h
        have := hp.length_eq
        simp at this
      obtain ⟨s2, rest2, rfl⟩ := List.exists_cons_of_ne_nil hne2
      have hprof2 : ∀ sh ∈ s2 :: rest2, sh.par = p ∧ sh.h0.map Poly.tag = t0 ∧
          sh.h1.map Poly.tag = t1 :=
        fun sh hsh => hprof sh (hp.mem_iff.mpr hsh)
      rw [r1_aggregate_canon s rest p t0 t1 hprof,
        r1_aggregate_canon s2 rest2 p t0 t1 hprof2,
        canonVec_congr t0 _ _ (fun i _ => colSum_perm RelinKeyShare.h0 hp i),
        canonVec_congr t1 _ _ (fun i _ => colSum_perm RelinKeyShare.h1 hp i)]
  · intro l1 l2 p lr t0 t1 hp ht hprof
    cases l1 with
    | nil =>
      have h2 : l2 = [] := hp.symm.eq_nil
      subst h2
      rfl
    | cons s rest =>
      have hne2 : l2 ≠ [] := by
        intro h
        subst h
        have := hp.length_eq
        simp at this
      obtain ⟨s2, rest2, rfl⟩ := List.exists_cons_of_ne_nil hne2
      have hprof2 : ∀ sh ∈ s2 :: rest2, sh.par = p ∧ sh.last_round = lr ∧
          sh.h0.map Poly.tag = t0 ∧ sh.h1.map Poly.tag = t1 :=
        fun sh hsh => hprof sh (hp.mem_iff.mpr hsh)
      obtain ⟨hpar1, hlr1, _, _⟩ := hprof s (List.mem_cons_self s rest)
      obtain ⟨hpar2, hlr2, _, _⟩ := hprof2 s2 (List.mem_cons_self s2 rest2)
      by_cases hm : 0 < p.moduli.length
      · cases lr with
        | none =>
          rw [r2_aggregate_missing s rest (by rw [hpar1]; exact hm) hlr1,
            r2_aggregate_missing s2 rest2 (by rw [hpar2]; exact hm) hlr2]
        | some r1 =>
          rw [r2_aggregate_canon s rest p r1 t0 t1 hm ht hprof,
            r2_aggregate_canon s2 rest2 p r1 t0 t1 hm ht hprof2,
            canonVec_congr t0 _ _
              (fun i _ => colSum2_perm RelinKeyShare.h0 RelinKeyShare.h1 hp i)]
      · rw [r2_aggregate_badctx s rest (by rw [hpar1]; exact hm),
          r2_aggregate_badctx s2 rest2 (by rw [hpar2]; exact hm)]
  · intro l1 l2 p t0 t1 a1 a2 hprof h1 h2
    cases l1 with
    | nil => simp [RelinKeyShare.r1_aggregate] at h1
    | cons s1 rest1 =>
      cases l2 with
      | nil => simp [RelinKeyShare.r1_aggregate] at h2
      | cons s2 rest2 =>
        have hprof1 : ∀ sh ∈ s1 :: rest1, sh.par = p ∧ sh.h0.map Poly.tag = t0 ∧
            sh.h1.map Poly.tag = t1 :=
          fun sh hsh => hprof sh (List.mem_append_left _ hsh)
        have hprof2 : ∀ sh ∈ s2 :: rest2, sh.par = p ∧ sh.h0.map Poly.tag = t0 ∧
            sh.h1.map Poly.tag = t1 :=
          fun sh hsh => hprof sh (List.mem_append_right _ hsh)
        rw [r1_aggregate_canon s1 rest1 p t0 t1 hprof1] at h1
        rw [r1_aggregate_canon s2 rest2 p t0 t1 hprof2] at h2
        have ha1 := Except.ok.inj h1
        have ha2 := Except.ok.inj h2
        subst ha1
        subst ha2
        have hwhole := r1_aggregate_canon s1 (rest1 ++ (s2 :: rest2)) p t0 t1
          (fun sh hsh => hprof sh hsh)
        rw [show (s1 :: rest1) ++ (s2 :: rest2) = s1 :: (rest1 ++ (s2 :: rest2))
          from rfl, hwhole]
        rw [RelinKeyShare.h0_mk, RelinKeyShare.h0_mk, RelinKeyShare.h1_mk,
          RelinKeyShare.h1_mk, addAssignZip_canonVec, addAssignZip_canonVec]
        rw [canonVec_congr t0 (colSum RelinKeyShare.h0 (s1 :: (rest1 ++ (s2 :: rest2))))
            (fun i => colSum RelinKeyShare.h0 (s1 :: rest1) i +
              colSum RelinKeyShare.h0 (s2 :: rest2) i)
            (fun i _ => by
              rw [show (s1 :: (rest1 ++ (s2 :: rest2))) =
                (s1 :: rest1) ++ (s2 :: rest2) from rfl, colSum_append]),
          canonVec_congr t1 (colSum RelinKeyShare.h1 (s1 :: (rest1 ++ (s2 :: rest2))))
            (fun i => colSum RelinKeyShare.h1 (s1 :: rest1) i +
              colSum RelinKeyShare.h1 (s2 :: rest2) i)
            (fun i _ => by
              rw [show (s1 :: (rest1 ++ (s2 :: rest2))) =
                (s1 :: rest1) ++ (s2 :: rest2) from rfl, colSum_append])]

/-- C6, at concrete two-share permutations and a concrete concatenation over
`ℤ`. -/
theorem witness_C6 :
    PublicKeySwitchShare.aggregate [pksA, pksB] =
      PublicKeySwitchShare.aggregate [pksB, pksA] ∧
    RelinKeyShare.r1_aggregate [r1A, r1C] = RelinKeyShare.r1_aggregate [r1C, r1A] ∧
    RelinKeyShare.r2_aggregate [r2A, r2C] = RelinKeyShare.r2_aggregate [r2C, r2A] ∧
    RelinKeyShare.r1_aggregate ([r1A] ++ [r1C]) =
      .ok (RelinKeyShare.mk parA
        (addAssignZip (RelinKeyShare.mk parA [pA 1] [pA 2] none
            : RelinKeyShare Int Round.R1Aggregated).h0
          (RelinKeyShare.mk parA [pA 3] [pA 4] none
            : RelinKeyShare Int Round.R1Aggregated).h0)
        (addAssignZip (RelinKeyShare.mk parA [pA 1] [pA 2] none
            : RelinKeyShare Int Round.R1Aggregated).h1
          (RelinKeyShare.mk parA [pA 3] [pA 4] none
            : RelinKeyShare Int Round.R1Aggregated).h1) none) := by
  have hmem2 : ∀ {α : Type} (a b sh : α), sh ∈ [a, b] → sh = a ∨ sh = b := by
    intro α a b sh hsh
    rcases List.mem_cons.mp hsh with h | hsh2
    · exact Or.inl h
    · rcases List.mem_cons.mp hsh2 with h | h3
      · exact Or.inr h
      · exact absurd h3 (List.not_mem_nil sh)
  refine ⟨?_, ?_, ?_, ?_⟩
  · exact (thm_C6 Int).1 [pksA, pksB] [pksB, pksA] parA (pA 1)
      ([5], Representation.Ntt) ([5], Representation.Ntt)
      (List.Perm.swap pksB pksA [])
      (fun sh hsh => by
        rcases hmem2 pksA pksB sh hsh with rfl | rfl
        · exact ⟨rfl, rfl, rfl, rfl⟩
        · exact ⟨rfl, rfl, rfl, rfl⟩)
  · exact (thm_C6 Int).2.1 [r1A, r1C] [r1C, r1A] parA
      [([5], Representation.Ntt)] [([5], Representation.Ntt)]
      (List.Perm.swap r1C r1A [])
      (fun sh hsh => by
        rcases hmem2 r1A r1C sh hsh with rfl | rfl
        · exact ⟨rfl, rfl, rfl⟩
        · exact ⟨rfl, rfl, rfl⟩)
  · exact (thm_C6 Int).2.2.1 [r2A, r2C] [r2C, r2A] parA (some aggAB)
      [([5], Representation.Ntt)] [([5], Representation.Ntt)]
      (List.Perm.swap r2C r2A []) rfl
      (fun sh hsh => by
        rcases hmem2 r2A r2C sh hsh with rfl | rfl
        · exact ⟨rfl, rfl, rfl, rfl⟩
        · exact ⟨rfl, rfl, rfl, rfl⟩)
  · exact (thm_C6 Int).2.2.2 [r1A] [r1C] parA
      [([5], Representation.Ntt)] [([5], Representation.Ntt)]
      (RelinKeyShare.mk parA [pA 1] [pA 2] none)
      (RelinKeyShare.mk parA [pA 3] [pA 4] none)
      (fun sh hsh => by
        rcases hmem2 r1A r1C sh hsh with rfl | rfl
        · exact ⟨rfl, rfl, rfl⟩
        · exact ⟨rfl, rfl, rfl⟩)
      rfl rfl

end Fhe
